import Mathlib

/-!
Verification of the URL query-parameter codec in src/utils/BrowserNavigation.ts.

This file gives a shallow embedding of the functions getQueryParams,
getUrlSegments, modifyQueryParams and extractFinalPathnameSegmentFromUrl,
together with models of the platform primitives they call
(encodeURIComponent, URLSearchParams, JSON.parse, JSON.stringify,
String.prototype.split, the URL constructor, and the specific regular
expressions appearing in the source), and proves or refutes the frozen
claims about them.

Modelling conventions:
- JavaScript runtime values that can appear in a query-parameter map are
  the inductive JsVal (string, number, boolean, null, array, object).
  JSON numbers are modelled as integers: fractional and exponent numerals
  are outside the model domain (no claim involves them), so the JSON
  parser model treats a numeral followed by a fraction or exponent part
  as a parse failure.
- Machine strings are Lean String values; character-level work is done on
  List Char via String.data.
- A JavaScript object is an insertion-ordered association list
  List (String × JsVal) with pairwise-distinct keys (JavaScript objects
  cannot hold duplicate keys); lookups take the first match.
- Thrown TypeError exceptions are modelled with Except JsError.
-/

/-- A JavaScript runtime value as it can appear in a query-parameter map:
a string, a (integer) number, a boolean, null, an array or a plain object. -/
inductive JsVal where
  | str (s : String)
  | num (n : Int)
  | bool (b : Bool)
  | null
  | arr (xs : List JsVal)
  | obj (fields : List (String × JsVal))
deriving Repr

namespace JsVal

mutual
/-- Structural (boolean) equality on JsVal. -/
def beq : JsVal → JsVal → Bool
  | .str a, .str b => a == b
  | .num a, .num b => a == b
  | .bool a, .bool b => a == b
  | .null, .null => true
  | .arr xs, .arr ys => beqList xs ys
  | .obj xs, .obj ys => beqFields xs ys
  | _, _ => false
/-- Structural equality on lists of JsVal. -/
def beqList : List JsVal → List JsVal → Bool
  | [], [] => true
  | x :: xs, y :: ys => beq x y && beqList xs ys
  | _, _ => false
/-- Structural equality on association lists of JsVal. -/
def beqFields : List (String × JsVal) → List (String × JsVal) → Bool
  | [], [] => true
  | (k1, v1) :: xs, (k2, v2) :: ys => k1 == k2 && beq v1 v2 && beqFields xs ys
  | _, _ => false
end

mutual
/-- Boolean equality agrees with propositional equality on JsVal. -/
def beq_iff_eq : ∀ a b : JsVal, beq a b = true ↔ a = b
  | .str _, .str _ => by simp [beq]
  | .num _, .num _ => by simp [beq]
  | .bool _, .bool _ => by simp [beq]
  | .null, .null => by simp [beq]
  | .arr xs, .arr ys => by simp [beq, beqList_iff_eq xs ys]
  | .obj xs, .obj ys => by simp [beq, beqFields_iff_eq xs ys]
  | .str _, .num _ => by simp [beq]
  | .str _, .bool _ => by simp [beq]
  | .str _, .null => by simp [beq]
  | .str _, .arr _ => by simp [beq]
  | .str _, .obj _ => by simp [beq]
  | .num _, .str _ => by simp [beq]
  | .num _, .bool _ => by simp [beq]
  | .num _, .null => by simp [beq]
  | .num _, .arr _ => by simp [beq]
  | .num _, .obj _ => by simp [beq]
  | .bool _, .str _ => by simp [beq]
  | .bool _, .num _ => by simp [beq]
  | .bool _, .null => by simp [beq]
  | .bool _, .arr _ => by simp [beq]
  | .bool _, .obj _ => by simp [beq]
  | .null, .str _ => by simp [beq]
  | .null, .num _ => by simp [beq]
  | .null, .bool _ => by simp [beq]
  | .null, .arr _ => by simp [beq]
  | .null, .obj _ => by simp [beq]
  | .arr _, .str _ => by simp [beq]
  | .arr _, .num _ => by simp [beq]
  | .arr _, .bool _ => by simp [beq]
  | .arr _, .null => by simp [beq]
  | .arr _, .obj _ => by simp [beq]
  | .obj _, .str _ => by simp [beq]
  | .obj _, .num _ => by simp [beq]
  | .obj _, .bool _ => by simp [beq]
  | .obj _, .null => by simp [beq]
  | .obj _, .arr _ => by simp [beq]
/-- Boolean equality agrees with propositional equality on value lists. -/
def beqList_iff_eq : ∀ xs ys : List JsVal, beqList xs ys = true ↔ xs = ys
  | [], [] => by simp [beqList]
  | [], _ :: _ => by simp [beqList]
  | _ :: _, [] => by simp [beqList]
  | x :: xs, y :: ys => by
      simp [beqList, beq_iff_eq x y, beqList_iff_eq xs ys]
/-- Boolean equality agrees with propositional equality on field lists. -/
def beqFields_iff_eq : ∀ xs ys : List (String × JsVal), beqFields xs ys = true ↔ xs = ys
  | [], [] => by simp [beqFields]
  | [], _ :: _ => by simp [beqFields]
  | _ :: _, [] => by simp [beqFields]
  | (_, v1) :: xs, (_, v2) :: ys => by
      simp [beqFields, beq_iff_eq v1 v2, beqFields_iff_eq xs ys, and_assoc]
end

instance : DecidableEq JsVal := fun a b => decidable_of_iff _ (beq_iff_eq a b)

/-- JavaScript truthiness of a value: the empty string, the number 0,
false and null are falsy; every other value (including empty arrays and
empty objects) is truthy. -/
def truthy : JsVal → Bool
  | .str s => s ≠ ""
  | .num n => n ≠ 0
  | .bool b => b
  | .null => false
  | .arr _ => true
  | .obj _ => true

end JsVal

/-- A JavaScript query-parameter object: an insertion-ordered association
list from string keys to values. -/
abbrev JsMap := List (String × JsVal)

/-- Property lookup on an object, first match (JavaScript objects hold each
key at most once). -/
def jsGet (m : JsMap) (k : String) : Option JsVal :=
  match m with
  | [] => none
  | (k1, v1) :: rest => if k1 = k then some v1 else jsGet rest k

/-- The `key in object` test. -/
def jsHasKey (m : JsMap) (k : String) : Bool :=
  (jsGet m k).isSome

/-- Property assignment `m[k] = v`: replaces the value in place when the key
exists (keeping its position, as JavaScript does) and appends a new entry
otherwise. -/
def jsAssign (m : JsMap) (k : String) (v : JsVal) : JsMap :=
  match m with
  | [] => [(k, v)]
  | (k1, v1) :: rest => if k1 = k then (k1, v) :: rest else (k1, v1) :: jsAssign rest k v

/-- The `delete m[k]` operation: removes the entry with the given key. -/
def jsDelete (m : JsMap) (k : String) : JsMap :=
  m.filter (fun kv => kv.1 ≠ k)

/-- Object spread merge, as in the two-spread literal that merges the current
query parameters with a caller-supplied object: keys already present keep
their position and take the new value; fresh keys are appended in order. -/
def jsMerge (m extra : JsMap) : JsMap :=
  (m.map fun kv => (kv.1, (jsGet extra kv.1).getD kv.2))
    ++ extra.filter (fun kv => ¬ jsHasKey m kv.1)

/-- SameValueZero sameness as used by a JavaScript Set when every stored
object or array is a freshly created reference: primitive values compare by
value; arrays and objects are compared by reference and all references
reaching the Set in getQueryParams are distinct, so they never coincide. -/
def jsSameValueZero : JsVal → JsVal → Bool
  | .str a, .str b => a == b
  | .num a, .num b => a == b
  | .bool a, .bool b => a == b
  | .null, .null => true
  | _, _ => false

/-- Building a JavaScript Set from a list and spreading it back to an array:
keeps the first occurrence of each element, in insertion order, under
jsSameValueZero sameness. -/
def jsSetDedup (xs : List JsVal) : List JsVal :=
  xs.foldl (fun acc x => if acc.any (fun y => jsSameValueZero y x) then acc else acc ++ [x]) []

/-- Decimal digit characters of a natural number, most significant first
(fuel-indexed worker; the wrapper supplies enough fuel for any input). -/
def natDigitsF : Nat → Nat → List Char
  | 0, _ => []
  | fuel + 1, n =>
    if n < 10 then [Char.ofNat (48 + n)]
    else natDigitsF fuel (n / 10) ++ [Char.ofNat (48 + n % 10)]

/-- Decimal digit characters of a natural number, most significant first. -/
def natDigits (n : Nat) : List Char := natDigitsF (n + 1) n

/-- Decimal character rendering of an integer: optional minus sign followed
by the digits, exactly as JavaScript renders an integral number. -/
def intChars (i : Int) : List Char :=
  (if i < 0 then ['-'] else []) ++ natDigits i.natAbs

mutual
/-- String conversion of a value by a template literal or by String():
strings pass through, numbers and booleans render canonically, null becomes
"null", arrays render as their comma-joined elements (Array.prototype.toString)
and plain objects become "[object Object]". -/
def jsTemplateChars : JsVal → List Char
  | .str s => s.data
  | .num n => intChars n
  | .bool b => if b then "true".data else "false".data
  | .null => "null".data
  | .arr xs => jsArrJoinDefault xs
  | .obj _ => "[object Object]".data
/-- Array.prototype.join with the default comma separator; null elements
render as the empty string. -/
def jsArrJoinDefault : List JsVal → List Char
  | [] => []
  | [.null] => []
  | [x] => jsTemplateChars x
  | .null :: xs => ',' :: jsArrJoinDefault xs
  | x :: xs => jsTemplateChars x ++ ',' :: jsArrJoinDefault xs
end

/-- Array.prototype.join with an arbitrary separator string, as used by the
delimiter mode of the encode branch; null elements render as the empty
string. -/
def jsArrJoinWith (sep : List Char) : List JsVal → List Char
  | [] => []
  | [.null] => []
  | [x] => jsTemplateChars x
  | .null :: xs => sep ++ jsArrJoinWith sep xs
  | x :: xs => jsTemplateChars x ++ sep ++ jsArrJoinWith sep xs

/-- String conversion wrapper returning a String. -/
def jsTemplate (v : JsVal) : String := ⟨jsTemplateChars v⟩

/-- Uppercase hexadecimal digit character for a value below 16, as emitted
by encodeURIComponent percent escapes. -/
def hexDigitUpper (n : Nat) : Char :=
  if n < 10 then Char.ofNat (48 + n) else Char.ofNat (65 + (n - 10))

/-- Hexadecimal digit test (both cases), as accepted by percent decoding. -/
def isHexDigit (c : Char) : Bool :=
  (48 ≤ c.toNat && c.toNat ≤ 57) || (97 ≤ c.toNat && c.toNat ≤ 102)
    || (65 ≤ c.toNat && c.toNat ≤ 70)

/-- Numeric value of a hexadecimal digit character. -/
def hexVal (c : Char) : Nat :=
  if 48 ≤ c.toNat && c.toNat ≤ 57 then c.toNat - 48
  else if 97 ≤ c.toNat && c.toNat ≤ 102 then c.toNat - 87
  else c.toNat - 55

/-- UTF-8 byte sequence of a Unicode code point (1 to 4 bytes). -/
def utf8Bytes (n : Nat) : List Nat :=
  if n < 0x80 then [n]
  else if n < 0x800 then [0xC0 + n / 64, 0x80 + n % 64]
  else if n < 0x10000 then [0xE0 + n / 4096, 0x80 + n / 64 % 64, 0x80 + n % 64]
  else [0xF0 + n / 262144, 0x80 + n / 4096 % 64, 0x80 + n / 64 % 64, 0x80 + n % 64]

/-- The characters encodeURIComponent leaves unescaped: ASCII letters,
digits, and - _ . ! ~ * apostrophe ( ). -/
def isUnescapedURIChar (c : Char) : Bool :=
  (65 ≤ c.toNat && c.toNat ≤ 90) || (97 ≤ c.toNat && c.toNat ≤ 122)
    || (48 ≤ c.toNat && c.toNat ≤ 57)
    || c = '-' || c = '_' || c = '.' || c = '!'
    || c = '~' || c = '*' || c = Char.ofNat 39 || c = '(' || c = ')'

/-- Percent escape of one byte: a percent sign followed by two uppercase
hexadecimal digits. -/
def percentByte (b : Nat) : List Char :=
  ['%', hexDigitUpper (b / 16), hexDigitUpper (b % 16)]

/-- Models the platform encodeURIComponent on a character list: unescaped
characters pass through and every other character is replaced by the
percent escapes of its UTF-8 bytes. -/
def encodeURIComponentChars (cs : List Char) : List Char :=
  cs.flatMap fun c =>
    if isUnescapedURIChar c then [c] else (utf8Bytes c.toNat).flatMap percentByte

/-- Models the platform encodeURIComponent on a String. -/
def encodeURIComponent (s : String) : String :=
  ⟨encodeURIComponentChars s.data⟩

/-- One step of application/x-www-form-urlencoded decoding, as performed
by URLSearchParams on each key and value: a plus sign becomes a space byte,
a valid percent escape becomes its byte, an invalid percent escape stays
literal, and any other character contributes its UTF-8 bytes. Returns the
produced bytes and the remaining input. -/
def formDecodeStep (c : Char) (rest : List Char) : List Nat × List Char :=
  if c = '+' then ([32], rest)
  else if c = '%' then
    match rest with
    | h1 :: h2 :: rest2 =>
      if isHexDigit h1 && isHexDigit h2 then ([hexVal h1 * 16 + hexVal h2], rest2)
      else (utf8Bytes c.toNat, rest)
    | _ => (utf8Bytes c.toNat, rest)
  else (utf8Bytes c.toNat, rest)

/-- First pass of application/x-www-form-urlencoded decoding, fuel-indexed:
the byte sequence produced by repeating formDecodeStep over the input. -/
def formDecodeBytesF : Nat → List Char → List Nat
  | 0, _ => []
  | _ + 1, [] => []
  | fuel + 1, c :: rest =>
    (formDecodeStep c rest).1 ++ formDecodeBytesF fuel (formDecodeStep c rest).2

/-- First pass of application/x-www-form-urlencoded decoding: the byte
sequence produced by repeating formDecodeStep over the input. -/
def formDecodeBytes (cs : List Char) : List Nat := formDecodeBytesF cs.length cs

/-- One step of UTF-8 decoding: consume the bytes of one character and
produce it, yielding the U+FFFD replacement character on an invalid
sequence, approximating the WHATWG decoder (the inputs arising in this
development are always valid). -/
def utf8DecodeStep (b0 : Nat) (rest : List Nat) : Char × List Nat :=
  if b0 < 0x80 then (Char.ofNat b0, rest)
  else if 0xC2 ≤ b0 && b0 < 0xE0 then
    match rest with
    | b1 :: rest1 =>
      if 0x80 ≤ b1 && b1 < 0xC0 then (Char.ofNat ((b0 - 0xC0) * 64 + (b1 - 0x80)), rest1)
      else (Char.ofNat 0xFFFD, rest)
    | [] => (Char.ofNat 0xFFFD, [])
  else if 0xE0 ≤ b0 && b0 < 0xF0 then
    match rest with
    | b1 :: b2 :: rest2 =>
      if 0x80 ≤ b1 && b1 < 0xC0 && 0x80 ≤ b2 && b2 < 0xC0 then
        if 0x800 ≤ (b0 - 0xE0) * 4096 + (b1 - 0x80) * 64 + (b2 - 0x80)
            && ¬ (0xD800 ≤ (b0 - 0xE0) * 4096 + (b1 - 0x80) * 64 + (b2 - 0x80)
                  && (b0 - 0xE0) * 4096 + (b1 - 0x80) * 64 + (b2 - 0x80) ≤ 0xDFFF) then
          (Char.ofNat ((b0 - 0xE0) * 4096 + (b1 - 0x80) * 64 + (b2 - 0x80)), rest2)
        else (Char.ofNat 0xFFFD, rest)
      else (Char.ofNat 0xFFFD, rest)
    | _ => (Char.ofNat 0xFFFD, [])
  else if 0xF0 ≤ b0 && b0 < 0xF5 then
    match rest with
    | b1 :: b2 :: b3 :: rest3 =>
      if 0x80 ≤ b1 && b1 < 0xC0 && 0x80 ≤ b2 && b2 < 0xC0 && 0x80 ≤ b3 && b3 < 0xC0 then
        if 0x10000 ≤ (b0 - 0xF0) * 262144 + (b1 - 0x80) * 4096 + (b2 - 0x80) * 64 + (b3 - 0x80)
            && (b0 - 0xF0) * 262144 + (b1 - 0x80) * 4096 + (b2 - 0x80) * 64 + (b3 - 0x80)
                < 0x110000 then
          (Char.ofNat ((b0 - 0xF0) * 262144 + (b1 - 0x80) * 4096 + (b2 - 0x80) * 64 + (b3 - 0x80)),
           rest3)
        else (Char.ofNat 0xFFFD, rest)
      else (Char.ofNat 0xFFFD, rest)
    | _ => (Char.ofNat 0xFFFD, [])
  else (Char.ofNat 0xFFFD, rest)

/-- UTF-8 decoding of a byte list back to characters, fuel-indexed: repeat
utf8DecodeStep until the input is exhausted. -/
def utf8DecodeCharsF : Nat → List Nat → List Char
  | 0, _ => []
  | _ + 1, [] => []
  | fuel + 1, b0 :: rest =>
    (utf8DecodeStep b0 rest).1 :: utf8DecodeCharsF fuel (utf8DecodeStep b0 rest).2

/-- UTF-8 decoding of a byte list back to characters: repeat
utf8DecodeStep until the input is exhausted. -/
def utf8DecodeChars (bs : List Nat) : List Char := utf8DecodeCharsF bs.length bs

/-- Full application/x-www-form-urlencoded decoding of a character list. -/
def formUrlDecodeChars (cs : List Char) : List Char :=
  utf8DecodeChars (formDecodeBytes cs)

/-- Full application/x-www-form-urlencoded decoding of a String. -/
def formUrlDecode (s : String) : String :=
  ⟨formUrlDecodeChars s.data⟩

/-- The opening curly brace character. -/
def lcurly : Char := Char.ofNat 123

/-- The closing curly brace character. -/
def rcurly : Char := Char.ofNat 125

/-- Lowercase hexadecimal digit character, as used in the unicode escapes
emitted by JSON.stringify. -/
def hexDigitLower (n : Nat) : Char :=
  if n < 10 then Char.ofNat (48 + n) else Char.ofNat (97 + (n - 10))

/-- One character of a JSON string body as JSON.stringify emits it: quote
and backslash are escaped, the control characters with short escapes use
them, any other control character becomes a unicode escape, and everything
else passes through. -/
def jsonEscapeChar (c : Char) : List Char :=
  if c = '"' then ['\\', '"']
  else if c = '\\' then ['\\', '\\']
  else if c = Char.ofNat 8 then ['\\', 'b']
  else if c = '\t' then ['\\', 't']
  else if c = '\n' then ['\\', 'n']
  else if c = Char.ofNat 12 then ['\\', 'f']
  else if c = '\r' then ['\\', 'r']
  else if c.toNat < 0x20 then
    ['\\', 'u', '0', '0', hexDigitLower (c.toNat / 16), hexDigitLower (c.toNat % 16)]
  else [c]

/-- The characters of a JSON string literal for s, including the quotes. -/
def jsonStrLit (s : String) : List Char :=
  '"' :: (s.data.flatMap jsonEscapeChar ++ ['"'])

mutual
/-- Models JSON.stringify on a value (numbers are integral by the modelling
convention; key order of objects is preserved). -/
def jsonStringifyChars : JsVal → List Char
  | .str s => jsonStrLit s
  | .num n => intChars n
  | .bool b => if b then "true".data else "false".data
  | .null => "null".data
  | .arr xs => '[' :: (jsonElemsChars xs ++ [']'])
  | .obj fs => lcurly :: (jsonMembersChars fs ++ [rcurly])
/-- Comma-separated renderings of array elements. -/
def jsonElemsChars : List JsVal → List Char
  | [] => []
  | [x] => jsonStringifyChars x
  | x :: xs => jsonStringifyChars x ++ ',' :: jsonElemsChars xs
/-- Comma-separated renderings of object members. -/
def jsonMembersChars : List (String × JsVal) → List Char
  | [] => []
  | [(k, v)] => jsonStrLit k ++ ':' :: jsonStringifyChars v
  | (k, v) :: fs => (jsonStrLit k ++ ':' :: jsonStringifyChars v) ++ ',' :: jsonMembersChars fs
end

/-- Models JSON.stringify on a String input. -/
def jsonStringify (v : JsVal) : String := ⟨jsonStringifyChars v⟩

/-- JSON insignificant whitespace. -/
def isJsonWsChar (c : Char) : Bool :=
  c = ' ' || c = '\t' || c = '\n' || c = '\r'

/-- Skip insignificant whitespace. -/
def skipJsonWs (cs : List Char) : List Char :=
  cs.dropWhile isJsonWsChar

/-- ASCII decimal digit test. -/
def isDigitChar (c : Char) : Bool :=
  48 ≤ c.toNat && c.toNat ≤ 57

/-- Split a leading run of decimal digits from the input. -/
def jsonTakeDigits : List Char → List Char × List Char
  | [] => ([], [])
  | c :: rest =>
    if isDigitChar c then
      let (ds, r) := jsonTakeDigits rest
      (c :: ds, r)
    else ([], c :: rest)

/-- Numeric value of a list of decimal digit characters. -/
def digitsToNat (ds : List Char) : Nat :=
  ds.foldl (fun a c => a * 10 + (c.toNat - 48)) 0

/-- Value of a four-digit hexadecimal escape. -/
def jsonHex4 (a b c d : Char) : Option Nat :=
  if isHexDigit a && isHexDigit b && isHexDigit c && isHexDigit d then
    some (((hexVal a * 16 + hexVal b) * 16 + hexVal c) * 16 + hexVal d)
  else none

/-- Resolution of a single-character JSON escape. -/
def jsonUnescape : Char → Option Char
  | '"' => some '"'
  | '\\' => some '\\'
  | '/' => some '/'
  | 'b' => some (Char.ofNat 8)
  | 'f' => some (Char.ofNat 12)
  | 'n' => some '\n'
  | 'r' => some '\r'
  | 't' => some '\t'
  | _ => none

/-- Parse the body of a JSON string literal after its opening quote.
Unescaped control characters are rejected, as JSON.parse rejects them.
Unicode escapes build the character directly (surrogate pairing is outside
the model domain; JSON.stringify never emits it for valid characters). -/
def jsonParseStrAux (acc : List Char) : List Char → Option (String × List Char)
  | '"' :: rest => some (⟨acc.reverse⟩, rest)
  | '\\' :: 'u' :: a :: b :: c :: d :: rest =>
    match jsonHex4 a b c d with
    | some n => jsonParseStrAux (Char.ofNat n :: acc) rest
    | none => none
  | '\\' :: e :: rest =>
    match jsonUnescape e with
    | some ch => jsonParseStrAux (ch :: acc) rest
    | none => none
  | c :: rest => if c.toNat < 0x20 then none else jsonParseStrAux (c :: acc) rest
  | [] => none

/-- Parse a JSON integer numeral: an optional minus sign and a digit run
with no redundant leading zero. A numeral continued by a fraction or an
exponent part is outside the model domain and is treated as unparsable
(see the module comment). -/
def jsonParseIntNum (cs : List Char) : Option (JsVal × List Char) :=
  let (neg, cs1) := match cs with
    | '-' :: r => (true, r)
    | _ => (false, cs)
  let (ds, cs2) := jsonTakeDigits cs1
  if ds = [] then none
  else if ds.head? = some '0' && ds.length ≠ 1 then none
  else
    match cs2 with
    | c :: _ =>
      if c = '.' || c = 'e' || c = 'E' then none
      else some (.num ((if neg then -1 else 1) * (digitsToNat ds : Int)), cs2)
    | [] => some (.num ((if neg then -1 else 1) * (digitsToNat ds : Int)), cs2)

/-- Rebuild a JavaScript object from parsed members: later duplicate keys
overwrite earlier ones in place, exactly as JSON.parse builds its result
object by successive property assignment. -/
def jsObjFromEntries (fs : List (String × JsVal)) : List (String × JsVal) :=
  fs.foldl (fun m kv => jsAssign m kv.1 kv.2) []

mutual
/-- Models JSON.parse value parsing (fuel-indexed; the top-level wrapper
supplies enough fuel for any input). -/
def jsonParseVal : Nat → List Char → Option (JsVal × List Char)
  | 0, _ => none
  | fuel + 1, cs =>
    match skipJsonWs cs with
    | 'n' :: 'u' :: 'l' :: 'l' :: r => some (.null, r)
    | 't' :: 'r' :: 'u' :: 'e' :: r => some (.bool true, r)
    | 'f' :: 'a' :: 'l' :: 's' :: 'e' :: r => some (.bool false, r)
    | '"' :: r =>
      match jsonParseStrAux [] r with
      | some (s, r1) => some (.str s, r1)
      | none => none
    | '[' :: r =>
      match skipJsonWs r with
      | ']' :: r1 => some (.arr [], r1)
      | r1 =>
        match jsonParseElems fuel r1 with
        | some (es, r2) => some (.arr es, r2)
        | none => none
    | c :: r =>
      if c = lcurly then
        match skipJsonWs r with
        | d :: r1 =>
          if d = rcurly then some (.obj [], r1)
          else
            match jsonParseMembers fuel (d :: r1) with
            | some (fs, r2) => some (.obj (jsObjFromEntries fs), r2)
            | none => none
        | [] => none
      else if c = '-' || isDigitChar c then jsonParseIntNum (c :: r)
      else none
    | [] => none
/-- Parse one or more comma-separated array elements up to the closing
bracket. -/
def jsonParseElems : Nat → List Char → Option (List JsVal × List Char)
  | 0, _ => none
  | fuel + 1, cs =>
    match jsonParseVal fuel cs with
    | none => none
    | some (v, r) =>
      match skipJsonWs r with
      | ',' :: r1 =>
        match jsonParseElems fuel r1 with
        | some (vs, r2) => some (v :: vs, r2)
        | none => none
      | ']' :: r1 => some ([v], r1)
      | _ => none
/-- Parse one or more comma-separated object members up to the closing
brace. -/
def jsonParseMembers : Nat → List Char → Option (List (String × JsVal) × List Char)
  | 0, _ => none
  | fuel + 1, cs =>
    match skipJsonWs cs with
    | '"' :: r =>
      match jsonParseStrAux [] r with
      | none => none
      | some (k, r1) =>
        match skipJsonWs r1 with
        | ':' :: r2 =>
          match jsonParseVal fuel r2 with
          | none => none
          | some (v, r3) =>
            match skipJsonWs r3 with
            | ',' :: r4 =>
              match jsonParseMembers fuel r4 with
              | some (fs, r5) => some ((k, v) :: fs, r5)
              | none => none
            | d :: r4 =>
              if d = rcurly then some ([(k, v)], r4) else none
            | [] => none
        | _ => none
    | _ => none
end

/-- Models JSON.parse on a String: parses one value and requires the rest
of the input to be whitespace; any failure is a thrown SyntaxError,
modelled as none. -/
def jsonParse (s : String) : Option JsVal :=
  match jsonParseVal (s.data.length + 1) s.data with
  | some (v, r) => if skipJsonWs r = [] then some v else none
  | none => none

/-- The internal helper of the decode branch: try to parse a scalar query
value as JSON and keep the original string verbatim when parsing fails. -/
def attemptParseJson (s : String) : JsVal :=
  (jsonParse s).getD (.str s)

/-- Split a character list at every occurrence of a separator character
(the pieces do not contain the separator; n separators give n+1 pieces). -/
def splitOnChar (sep : Char) : List Char → List (List Char)
  | [] => [[]]
  | c :: rest =>
    let ps := splitOnChar sep rest
    if c = sep then [] :: ps
    else (c :: ps.headD []) :: ps.tail

/-- Leftmost, non-overlapping split of a character list on a nonempty
separator sequence, as String.prototype.split performs for a nonempty
separator string. -/
def splitOnSeqF (s : Char) (ss : List Char) : Nat → List Char → List (List Char)
  | 0, _ => [[]]
  | _ + 1, [] => [[]]
  | fuel + 1, c :: rest =>
    if List.isPrefixOf (s :: ss) (c :: rest) then
      [] :: splitOnSeqF s ss fuel ((c :: rest).drop (s :: ss).length)
    else
      (c :: (splitOnSeqF s ss fuel rest).headD []) :: (splitOnSeqF s ss fuel rest).tail

def splitOnSeq (s : Char) (ss : List Char) (cs : List Char) : List (List Char) :=
  splitOnSeqF s ss cs.length cs

/-- Models String.prototype.split with a string separator: an empty
separator splits into single characters (so the empty string yields no
pieces), and a nonempty separator splits on its occurrences. -/
def jsStringSplit (str sep : String) : List String :=
  match sep.data with
  | [] => str.data.map fun c => ⟨[c]⟩
  | s :: ss => (splitOnSeq s ss str.data).map fun p => (⟨p⟩ : String)

/-- Split one piece of a query string at its first equals sign: the key is
everything before it and the value everything after it (the empty string
when there is no equals sign), as URLSearchParams does. -/
def splitPieceAtEq (p : List Char) : List Char × List Char :=
  let k := p.takeWhile (fun c => c ≠ '=')
  let r := p.dropWhile (fun c => c ≠ '=')
  (k, r.tail)

/-- Models string-initialized URLSearchParams iteration: an optional single
leading question mark is dropped, the rest is split on ampersands, empty
pieces are skipped, and each piece is split at its first equals sign with
key and value form-url-decoded. -/
def urlSearchParamsEntries (cs : List Char) : List (String × String) :=
  let cs1 := match cs with
    | '?' :: rest => rest
    | _ => cs
  ((splitOnChar '&' cs1).filter (fun p => p ≠ [])).map fun p =>
    let (k, v) := splitPieceAtEq p
    ((⟨formUrlDecodeChars k⟩ : String), (⟨formUrlDecodeChars v⟩ : String))

/-- The delimiter post-processing of one raw decoded value (lines 126-134
of the source): with no delimiter the value stays a single string; with a
delimiter the value is split, an empty split result becomes the empty
string, a one-element split collapses to that element, and anything longer
stays a list. -/
def applyDelimiter (delim : Option String) (raw : String) : Sum String (List String)  :=
  match delim with
  | none => .inl raw
  | some d =>
    let parts := jsStringSplit raw d
    if parts.length = 0 then .inl ""
    else if parts.length = 1 then .inl (parts.headD "")
    else .inr parts

/-- One step of the reduce that folds decoded entries into the result map:
parses the value (or each of its delimiter-split parts) as JSON, and for a
repeated key merges old and new values through a Set that removes
duplicates while preserving first-seen order. -/
def reduceEntry (delim : Option String) (m : JsMap) (kv : String × String) : JsMap :=
  let key := kv.1
  let value : JsVal :=
    match applyDelimiter delim kv.2 with
    | .inr parts => .arr (parts.map attemptParseJson)
    | .inl s => attemptParseJson s
  if jsHasKey m key then
    let toAdd := match value with
      | .arr xs => xs
      | v => [v]
    let base := match jsGet m key with
      | some (.arr ys) => ys
      | some v => [v]
      | none => []
    jsAssign m key (.arr (jsSetDedup (base ++ toAdd)))
  else m ++ [(key, value)]

/-- Fold a list of raw string entries into a query-parameter map, starting
from a base map (the hash entry, when present). -/
def foldEntries (delim : Option String) (base : JsMap) (entries : List (String × String)) : JsMap :=
  entries.foldl (reduceEntry delim) base

/-- JavaScript line terminators, the characters the regular-expression dot
never matches: line feed, carriage return, line separator and paragraph
separator. -/
def isLineTerm (c : Char) : Bool :=
  c = '\n' || c = '\r' || c = Char.ofNat 0x2028 || c = Char.ofNat 0x2029

/-- The suffix of a string matched by the regular expression ([?#].*$),
that is, from the first question mark or hash sign after which no line
terminator follows, to the end; the empty string when there is no match.
Since the dot does not match line terminators, a candidate position is
viable only inside the final terminator-free segment. -/
def queryHashPart (cs : List Char) : List Char :=
  let lastSeg := (cs.reverse.takeWhile (fun c => ¬ isLineTerm c)).reverse
  lastSeg.dropWhile (fun c => c ≠ '?' && c ≠ '#')

/-- The decode branch of getQueryParams for a string input: extract the
query/hash suffix, split off the hash fragment (String.prototype.split on
the hash sign, destructured to its first two pieces), seed the result with
the hash entry when the fragment is truthy, and fold the URLSearchParams
entries of the query part. -/
def decodeQueryString (s : String) (delim : Option String) : JsMap :=
  let queryParamHashString := queryHashPart s.data
  let pieces := splitOnChar '#' queryParamHashString
  let urlSearchQuery := pieces.headD []
  let hash := (pieces.drop 1).headD []
  let base : JsMap := if hash ≠ [] then [("#", .str ⟨hash⟩)] else []
  foldEntries delim base (urlSearchParamsEntries urlSearchQuery)

/-- One encoded key=value piece, both sides percent-encoded (the value is
first converted to a string when it is not one). -/
def encPair (k : String) (v : List Char) : List Char :=
  encodeURIComponentChars k.data ++ '=' :: encodeURIComponentChars v

/-- The encode branch of getQueryParams for an object input: the hash entry
is read (falsy values degrade to the empty string) and deleted from a copy,
every remaining entry is rendered — arrays as repeated pairs or as one
delimiter-joined pair, null as the empty string, objects JSON-stringified,
scalars stringified — the pieces are joined with ampersands behind a
question mark when any entry exists, and a truthy hash is appended behind
a hash sign. -/
def encodeQueryMapChars (m : JsMap) (delim : Option String) : List Char :=
  let hashVal : Option JsVal := match jsGet m "#" with
    | some v => if v.truthy then some v else none
    | none => none
  let entries := jsDelete m "#"
  let pieces := entries.map fun kv =>
    match kv.2 with
    | .arr xs =>
      match delim with
      | some d => encPair kv.1 (jsArrJoinWith d.data xs)
      | none => List.intercalate ['&'] (xs.map fun x => encPair kv.1 (jsTemplateChars x))
    | .null => encPair kv.1 []
    | .obj fs => encPair kv.1 (jsonStringifyChars (.obj fs))
    | v => encPair kv.1 (jsTemplateChars v)
  let queryString := if entries.length > 0 then '?' :: List.intercalate ['&'] pieces else []
  queryString ++ (match hashVal with
    | some v => '#' :: jsTemplateChars v
    | none => [])

/-- String wrapper of the encode branch. -/
def encodeQueryMap (m : JsMap) (delim : Option String) : String :=
  ⟨encodeQueryMapChars m delim⟩

/-- The flattened percent-encoded key=value pieces one object entry
contributes to the encoded query string, before the ampersand joining:
a sequence value contributes one piece per element, every other value one
piece. -/
def entrySubPieces (kv : String × JsVal) : List (List Char) :=
  match kv.2 with
  | .arr xs => xs.map (fun x => encPair kv.1 (jsTemplateChars x))
  | .null => [encPair kv.1 []]
  | .obj fs => [encPair kv.1 (jsonStringifyChars (.obj fs))]
  | v => [encPair kv.1 (jsTemplateChars v)]

/-- The decoded key-value string entries the same object entry comes back
as from URLSearchParams. -/
def entryPieces (kv : String × JsVal) : List (String × String) :=
  match kv.2 with
  | .arr xs => xs.map (fun x => (kv.1, jsTemplate x))
  | .null => [(kv.1, "")]
  | .obj fs => [(kv.1, jsonStringify (.obj fs))]
  | v => [(kv.1, jsTemplate v)]

/-- Entries produced by URLSearchParams when initialized from a sequence of
pairs, after the source has JSON-stringified truthy object values: values
are converted to strings, with no percent decoding. -/
def matrixEntries (rows : List (String × JsVal)) : List (String × String) :=
  rows.map fun kv =>
    match kv.2 with
    | .arr xs => (kv.1, jsonStringify (.arr xs))
    | .obj fs => (kv.1, jsonStringify (.obj fs))
    | v => (kv.1, jsTemplate v)

/-- The runtime input of getQueryParams, one constructor per runtime type
the dispatch distinguishes: a string, an array of key-value rows, a plain
object, a number or a boolean. Null and undefined inputs are not modelled:
undefined selects the default argument (the current location), which the
claims treat separately. -/
inductive GQPInput where
  | ofString (s : String)
  | ofMatrix (rows : List (String × JsVal))
  | ofObj (m : JsMap)
  | ofNum (n : Int)
  | ofBool (b : Bool)
deriving DecidableEq, Repr

/-- The result of getQueryParams: a query string (for object inputs) or a
query-parameter map (for string and matrix inputs). -/
inductive GQPOutput where
  | ofString (s : String)
  | ofMap (m : JsMap)
deriving DecidableEq, Repr

/-- A thrown JavaScript exception. -/
inductive JsError where
  | typeError (msg : String)
deriving DecidableEq, Repr

/-- The JavaScript typeof tag of a modelled input. -/
def typeofTag : GQPInput → String
  | .ofString _ => "string"
  | .ofMatrix _ => "object"
  | .ofObj _ => "object"
  | .ofNum _ => "number"
  | .ofBool _ => "boolean"

/-- Models getQueryParams: strings are decoded into a map, arrays of rows
are stringified and decoded into a map, objects are encoded into a string,
and any other input type makes the function throw a TypeError naming the
received type and the accepted shapes. -/
def getQueryParams (input : GQPInput) (delim : Option String := none) :
    Except JsError GQPOutput :=
  match input with
  | .ofString s => .ok (.ofMap (decodeQueryString s delim))
  | .ofMatrix rows => .ok (.ofMap (foldEntries delim [] (matrixEntries rows)))
  | .ofObj m => .ok (.ofString (encodeQueryMap m delim))
  | other =>
    .error (.typeError ("Type \"" ++ typeofTag other ++ "\" is not supported. Please use a string or object."))

/-- The segments destructured from a platform URL object (or the regex
fallback). -/
structure URLParts where
  href : String
  protocol : String
  domain : String
  port : String
  origin : String
  pathname : String
  search : String
  hash : String
deriving DecidableEq, Repr

/-- Lowercase ASCII letter, the scheme alphabet of the URL model. -/
def isSchemeChar (c : Char) : Bool := 97 ≤ c.toNat && c.toNat ≤ 122

/-- Host characters of the URL model: lowercase letters, digits, dots and
hyphens. -/
def isHostChar (c : Char) : Bool :=
  (97 ≤ c.toNat && c.toNat ≤ 122) || isDigitChar c || c = '.' || c = '-'

/-- Path characters of the URL model: letters, digits, slashes, hyphens and
underscores (no dot segments and no characters the platform parser would
percent-encode, which are outside the model domain). -/
def isPathChar (c : Char) : Bool :=
  c.isAlpha || isDigitChar c || c = '/' || c = '-' || c = '_'

/-- Query characters of the URL model. -/
def isSearchChar (c : Char) : Bool :=
  c.isAlpha || isDigitChar c || c = '=' || c = '&' || c = '-' || c = '_' || c = ','

/-- Fragment characters of the URL model. -/
def isFragChar (c : Char) : Bool :=
  c.isAlpha || isDigitChar c || c = '-' || c = '_'

/-- Models the platform URL constructor on a restricted but representative
domain of absolute URLs of the shape scheme://host[:port][/path][?query][#hash]
written with the character sets above. Inputs outside this domain yield
none (modelling a thrown error and selecting the regex fallback in
getUrlSegments). The model performs the same normalizations as the
platform parser on this domain: an empty path becomes a single slash and
a default port (80 for http, 443 for https) is dropped. -/
def jsURL? (url : String) : Option URLParts :=
  let cs := url.data
  let scheme := cs.takeWhile isSchemeChar
  match cs.drop scheme.length with
  | ':' :: '/' :: '/' :: r1 =>
    if scheme = [] then none else
    let host := r1.takeWhile isHostChar
    let r2 := r1.drop host.length
    if host = [] then none else
    let portAndRest : List Char × List Char := match r2 with
      | ':' :: r2a => (r2a.takeWhile isDigitChar, r2a.drop (r2a.takeWhile isDigitChar).length)
      | _ => ([], r2)
    let port := portAndRest.1
    let r3 := portAndRest.2
    if port.head? = some '0' then none else
    let path := r3.takeWhile isPathChar
    let r4 := r3.drop path.length
    if ¬ (path = [] ∨ path.head? = some '/') then none else
    let searchAndRest : List Char × List Char := match r4 with
      | '?' :: r4a => ('?' :: r4a.takeWhile isSearchChar, r4a.drop (r4a.takeWhile isSearchChar).length)
      | _ => ([], r4)
    let search := searchAndRest.1
    let r5 := searchAndRest.2
    if search.length = 1 then none else
    let fragAndRest : List Char × List Char := match r5 with
      | '#' :: r5a => ('#' :: r5a.takeWhile isFragChar, r5a.drop (r5a.takeWhile isFragChar).length)
      | _ => ([], r5)
    let frag := fragAndRest.1
    let r6 := fragAndRest.2
    if frag.length = 1 then none else
    if r6 ≠ [] then none else
    let isDefaultPort : Bool :=
      (scheme = "http".data && port = "80".data) || (scheme = "https".data && port = "443".data)
    let port1 := if isDefaultPort then [] else port
    let portPart := if port1 = [] then [] else ':' :: port1
    let path1 := if path = [] then ['/'] else path
    some {
      href := ⟨scheme ++ ':' :: '/' :: '/' :: (host ++ portPart ++ path1 ++ search ++ frag)⟩
      protocol := ⟨scheme ++ [':']⟩
      domain := ⟨host⟩
      port := ⟨port1⟩
      origin := ⟨scheme ++ ':' :: '/' :: '/' :: (host ++ portPart)⟩
      pathname := ⟨path1⟩
      search := ⟨search⟩
      hash := ⟨frag⟩ }
  | _ => none

/-- Models the regex fallback of getUrlSegments: the anchored sequence of
capture groups protocol ([^:/?#]*://)? domain [^:/?#]* port (?::)?(\d*)
pathname [^?#]* query [^#]* hash (.*), evaluated with the greedy,
backtracking semantics of RegExp.exec. The exec call returns null exactly
when a line terminator occurs after the first hash sign (the dot of the
hash group cannot match it); the model then returns none and getUrlSegments throws,
as destructuring null does. Returns (protocol, domain, port, pathname,
query, hash); group 0 is the whole input. -/
def urlPiecesParse (url : String) :
    Option (String × String × String × String × String × String) :=
  let cs := url.data
  let afterHash := cs.dropWhile (fun c => c ≠ '#')
  if afterHash.any isLineTerm then none
  else
    let protoRun := cs.takeWhile (fun c => c ≠ ':' && c ≠ '/' && c ≠ '?' && c ≠ '#')
    let protoAndRest : List Char × List Char := match cs.drop protoRun.length with
      | ':' :: '/' :: '/' :: rest => (protoRun ++ [':', '/', '/'], rest)
      | _ => ([], cs)
    let protocol := protoAndRest.1
    let r1 := protoAndRest.2
    let domain := r1.takeWhile (fun c => c ≠ ':' && c ≠ '/' && c ≠ '?' && c ≠ '#')
    let r2 := r1.drop domain.length
    let portAndRest : List Char × List Char := match r2 with
      | ':' :: r2a => (r2a.takeWhile isDigitChar, r2a.drop (r2a.takeWhile isDigitChar).length)
      | _ => ([], r2)
    let port := portAndRest.1
    let r3 := portAndRest.2
    let pathname := r3.takeWhile (fun c => c ≠ '?' && c ≠ '#')
    let r4 := r3.drop pathname.length
    let query := r4.takeWhile (fun c => c ≠ '#')
    let hash := r4.drop query.length
    some (⟨protocol⟩, ⟨domain⟩, ⟨port⟩, ⟨pathname⟩, ⟨query⟩, ⟨hash⟩)

/-- Remove every trailing slash, as the anchored replace of /\/+$/ with the
empty string does. -/
def dropTrailingSlashes (cs : List Char) : List Char :=
  (cs.reverse.dropWhile (fun c => c = '/')).reverse

/-- String wrapper of dropTrailingSlashes. -/
def dropTrailingSlashesStr (s : String) : String := ⟨dropTrailingSlashes s.data⟩

/-- Models the single (non-global) replace of /\/+(?=\?|#|$)/ with the
empty string: removes the leftmost maximal run of slashes that is
immediately followed by a question mark, a hash sign or the end of the
input, and leaves everything else unchanged. -/
def slashRunStripF : Nat → List Char → List Char
  | 0, cs => cs
  | _ + 1, [] => []
  | fuel + 1, c :: rest =>
    if c = '/' then
      match rest.dropWhile (fun x => x = '/') with
      | [] => []
      | a :: t =>
        if a = '?' ∨ a = '#' then a :: t
        else ('/' :: rest.takeWhile (fun x => x = '/')) ++ slashRunStripF fuel (a :: t)
    else c :: slashRunStripF fuel rest

def slashRunStrip (cs : List Char) : List Char := slashRunStripF cs.length cs

/-- String wrapper of slashRunStrip. -/
def slashRunStripStr (s : String) : String := ⟨slashRunStrip s.data⟩

/-- Models the replace of /:\/?\/?/ with the empty string: removes the
first colon together with up to two immediately following slashes. -/
def stripProtoColon : List Char → List Char
  | [] => []
  | ':' :: '/' :: '/' :: rest => rest
  | ':' :: '/' :: rest => rest
  | ':' :: rest => rest
  | c :: rest => c :: stripProtoColon rest

/-- String wrapper of stripProtoColon. -/
def stripProtoColonStr (s : String) : String := ⟨stripProtoColon s.data⟩

/-- The segments returned by getUrlSegments. -/
structure UrlSegments where
  fullUrl : String
  protocol : String
  domain : String
  port : String
  origin : String
  pathname : String
  queryParamHashString : String
  queryParamMap : JsMap
  queryString : String
  hash : String
deriving DecidableEq, Repr

/-- Models getUrlSegments: parse with the platform URL constructor, fall
back to the regex decomposition when it fails (the fallback itself throws
when the exec result is null), then normalize: concatenate query and hash
before stripping, strip the colon-and-slashes from the protocol, strip the
slash run of the full URL before a query, hash or the end, strip trailing
slashes from origin and pathname, drop the leading marker character from
the query string and the hash, and decode the combined query/hash string
into a map. -/
def getUrlSegments (url : String) : Except JsError UrlSegments :=
  let parsed : Option (String × String × String × String × String × String × String × String) :=
    match jsURL? url with
    | some u => some (u.href, u.protocol, u.domain, u.port, u.origin, u.pathname, u.search, u.hash)
    | none =>
      (urlPiecesParse url).map fun x =>
        match x with
        | (protocol, domain, port, pathname, query, hash) =>
          (url, protocol, domain, port,
           protocol ++ domain ++ (if port ≠ "" then ":" ++ port else ""),
           pathname, query, hash)
  match parsed with
  | none =>
    .error (.typeError "Cannot destructure a null RegExp.exec result")
  | some (fullUrl0, protocol0, domain, port, origin0, pathname0, queryString0, hash0) =>
    let queryParamHashString := queryString0 ++ hash0
    let protocol := stripProtoColonStr protocol0
    let fullUrl := slashRunStripStr fullUrl0
    let origin := dropTrailingSlashesStr origin0
    let pathname := dropTrailingSlashesStr pathname0
    let queryString := queryString0.drop 1
    let hash := hash0.drop 1
    .ok {
      fullUrl := fullUrl
      protocol := protocol
      domain := domain
      port := port
      origin := origin
      pathname := pathname
      queryParamHashString := queryParamHashString
      queryParamMap := decodeQueryString queryParamHashString none
      queryString := queryString
      hash := hash }

/-- The character class [/?#] ending the captured segment of the
final-pathname-segment regex. -/
def stopSegChar (c : Char) : Bool := c = '/' || c = '?' || c = '#'

/-- Searches one line (first argument) for the rightmost slash that can
anchor a match of .*\/([^/?#]*)(?:$|\?|#).* — the dot before the slash
cannot cross a line terminator, so the slash must sit in the line of the
match start, while the captured class and the viability test run over the
full remaining input (second argument appended). Returns the capture and
the input left after the match (the trailing dots consume to the next
line terminator). -/
def lastViableInLine : List Char → List Char → Option (List Char × List Char)
  | [], _ => none
  | c :: rest, tailAfter =>
    match lastViableInLine rest tailAfter with
    | some r => some r
    | none =>
      if c = '/' then
        let suffix := rest ++ tailAfter
        let cap := suffix.takeWhile (fun x => ¬ stopSegChar x)
        match suffix.dropWhile (fun x => ¬ stopSegChar x) with
        | [] => some (cap, [])
        | d :: post0 =>
          if d = '?' ∨ d = '#' then some (cap, post0.dropWhile (fun x => ¬ isLineTerm x))
          else none
      else none

/-- Scans the input line by line for the leftmost match start of the
final-pathname-segment regex and returns the replace decomposition
(prefix kept, capture, suffix kept); none when the regex does not match
anywhere. -/
def extractSearchF : Nat → List Char → Option (List Char × List Char × List Char)
  | 0, _ => none
  | fuel + 1, cs =>
    match lastViableInLine (cs.takeWhile (fun c => ¬ isLineTerm c))
        (cs.dropWhile (fun c => ¬ isLineTerm c)) with
    | some (cap, post) => some ([], cap, post)
    | none =>
      match cs.dropWhile (fun c => ¬ isLineTerm c) with
      | [] => none
      | nl :: rest1 =>
        match extractSearchF fuel rest1 with
        | some (pre, cap, post) =>
          some (cs.takeWhile (fun c => ¬ isLineTerm c) ++ nl :: pre, cap, post)
        | none => none

def extractSearch (cs : List Char) : Option (List Char × List Char × List Char) :=
  extractSearchF (cs.length + 1) cs

/-- Models extractFinalPathnameSegmentFromUrl: replace the single
(non-global) match of .*\/([^/?#]*)(?:$|\?|#).* with its capture group;
when the pattern does not match, the input is returned unchanged. The
default argument is the empty string. -/
def extractFinalPathnameSegmentFromUrl (url : String := "") : String :=
  match extractSearch url.data with
  | none => url
  | some (pre, cap, post) => ⟨pre ++ cap ++ post⟩

/-- The browser location, reduced to its href (search and hash are derived
views of it). -/
structure Location where
  href : String
deriving DecidableEq, Repr

/-- The concatenation location.search + location.hash used as the default
input of getQueryParams: the suffix of the href from its first question
mark, or from its first hash sign when no question mark precedes it. -/
def locationSearchHash (loc : Location) : String :=
  ⟨queryHashPart loc.href.data⟩

/-- First argument of modifyQueryParams: a single key or an object of
key-value pairs. -/
inductive KeyArg where
  | ofString (k : String)
  | ofObj (m : JsMap)
deriving DecidableEq, Repr

/-- The options bag of modifyQueryParams. -/
structure ModOptions where
  url : Option String
  overwriteQueryParams : Bool
  pushOnHistory : Bool
  returnUrl : Bool
deriving DecidableEq, Repr

/-- The empty options bag (every option left unset). -/
def noModOptions : ModOptions := ⟨none, false, false, false⟩

/-- Models modifyQueryParams. The current page state is passed explicitly
as a Location and returned alongside the result: pushOnHistory updates the
location through history.pushState without reloading. The baseline comes
from the current location (not from the optional target url), matching the
source. The function returns the new URL when returnUrl is set and
otherwise a fresh getQueryParams() read of the (possibly updated) current
location. -/
def modifyQueryParams (key : KeyArg) (value : Option JsVal) (opts : ModOptions)
    (loc : Location) : Except JsError (GQPOutput × Location) :=
  match getUrlSegments (opts.url.getD loc.href) with
  | .error e => .error e
  | .ok segs =>
    let queryParams0 := decodeQueryString (locationSearchHash loc) none
    let queryParams :=
      match key with
      | .ofObj newObj =>
        if opts.overwriteQueryParams then newObj else jsMerge queryParams0 newObj
      | .ofString k =>
        match value with
        | some v =>
          if v.truthy then
            (if opts.overwriteQueryParams then [(k, v)] else jsAssign queryParams0 k v)
          else jsDelete queryParams0 k
        | none => jsDelete queryParams0 k
    let queryParamsString := encodeQueryMap queryParams none
    let newUrl := segs.origin ++ segs.pathname ++ queryParamsString
    let loc1 := if opts.pushOnHistory then (⟨newUrl⟩ : Location) else loc
    .ok ((if opts.returnUrl then .ofString newUrl
          else .ofMap (decodeQueryString (locationSearchHash loc1) none)), loc1)

/-- A heap of JavaScript objects for observing mutation: references mapped
to their current contents. -/
abbrev Heap := List (Nat × JsMap)

/-- Heap lookup (first match). -/
def heapGet (h : Heap) (r : Nat) : Option JsMap :=
  match h with
  | [] => none
  | (r1, m) :: rest => if r1 = r then some m else heapGet rest r

/-- Heap update of the first entry with a given reference. -/
def heapSet (h : Heap) (r : Nat) (m : JsMap) : Heap :=
  match h with
  | [] => []
  | (r1, m1) :: rest => if r1 = r then (r1, m) :: rest else (r1, m1) :: heapSet rest r m

/-- A reference unused by the heap. -/
def freshRef (h : Heap) : Nat :=
  (h.map Prod.fst).foldr max 0 + 1

/-- The encode branch of getQueryParams with its heap effects made
explicit, mirroring the source line by line: the spread allocates a fresh
shallow copy and rebinds the local variable to it, the hash entry is read,
the delete mutates only the fresh copy, and the query string is built from
the copy. Returns the encoded string and the final heap. -/
def getQueryParamsObjHeap (h : Heap) (r : Nat) (delim : Option String) :
    String × Heap :=
  match heapGet h r with
  | none => ("", h)
  | some m =>
    let r1 := freshRef h
    let h1 := (r1, m) :: h
    let h2 := heapSet h1 r1 (jsDelete m "#")
    (encodeQueryMap m delim, h2)

/-- Duplicate-freedom of a key list, decided directly. -/
def keysNodupB : List String → Bool
  | [] => true
  | k :: ks => ks.all (fun x => ¬ (x = k)) && keysNodupB ks

mutual
/-- Well-formedness of a value as a JavaScript runtime could hold it: every
object, at any depth, has pairwise-distinct keys. -/
def JsVal.wfB : JsVal → Bool
  | .arr xs => JsVal.wfBList xs
  | .obj fs => keysNodupB (fs.map Prod.fst) && JsVal.wfBFields fs
  | _ => true
/-- Well-formedness of every value in a list. -/
def JsVal.wfBList : List JsVal → Bool
  | [] => true
  | x :: xs => JsVal.wfB x && JsVal.wfBList xs
/-- Well-formedness of every value in a field list. -/
def JsVal.wfBFields : List (String × JsVal) → Bool
  | [] => true
  | (_, v) :: fs => JsVal.wfB v && JsVal.wfBFields fs
end

/-- Scalar test: a string, number, boolean or null. -/
def JsVal.isScalar : JsVal → Bool
  | .str _ => true
  | .num _ => true
  | .bool _ => true
  | .null => true
  | _ => false

/-- Array test. -/
def JsVal.isArr : JsVal → Bool
  | .arr _ => true
  | _ => false

/-- What one element of a repeated-key group decodes back to: the element
is rendered by the template literal during encoding and the decoded raw
string is then JSON-parsed. -/
def elemDecode (x : JsVal) : JsVal :=
  attemptParseJson (jsTemplate x)

/-- Pairwise distinctness under Set sameness. -/
def pairwiseDistinctB : List JsVal → Bool
  | [] => true
  | p :: ps => ps.all (fun q => ¬ jsSameValueZero p q) && pairwiseDistinctB ps

/-- Domain condition on a sequence value under which the encode/decode
round trip can reproduce it: at least two elements, all scalars, none
decoding to an array (arrays would be flattened into the group), and
pairwise distinct after decoding (duplicates would be removed by the Set). -/
def seqRoundTrippable (xs : List JsVal) : Bool :=
  decide (2 ≤ xs.length) && xs.all JsVal.isScalar
    && (xs.map elemDecode).all (fun p => ¬ p.isArr)
    && pairwiseDistinctB (xs.map elemDecode)

/-- Domain condition on one entry of a map under which the encode/decode
round trip can reproduce it: the hash entry must hold a nonempty string
without a hash sign or line terminator; a sequence value must be seqRoundTrippable; an object
value must be well formed; scalars are unrestricted. -/
def entryRoundTrippable (kv : String × JsVal) : Bool :=
  if kv.1 = "#" then
    match kv.2 with
    | .str h => h ≠ "" && ¬ (h.data.contains '#') && h.data.all (fun c => ¬ isLineTerm c)
    | _ => false
  else
    match kv.2 with
    | .arr xs => seqRoundTrippable xs
    | .obj fs => JsVal.wfB (.obj fs)
    | _ => true

/-- Written from the words of the spec (the refinement side of the
round-trip claim): the JSON type normalization of one element of a
sequence value, where string-typed elements become their JSON-parsed
equivalents. -/
def specNormalizeElem : JsVal → JsVal
  | .str s => attemptParseJson s
  | x => x

/-- Written from the words of the spec (the refinement side of the
round-trip claim): the JSON type normalization of a decoded value —
string-typed values become their JSON-parsed equivalents, null encodes as
the empty string, and the elements of a sequence normalize elementwise. -/
def specNormalizeVal : JsVal → JsVal
  | .str s => attemptParseJson s
  | .null => .str ""
  | .arr xs => .arr (xs.map specNormalizeElem)
  | x => x

/-- Written from the words of the spec: the expected result of decoding an
encoded map, value by value (the hash entry is carried verbatim). -/
def specNormalizeMap (m : JsMap) : JsMap :=
  m.map fun kv => (kv.1, if kv.1 = "#" then kv.2 else specNormalizeVal kv.2)

/-- Equivalence of two query-parameter maps as JavaScript objects: every
key reads back the same value in both. -/
def queryMapEquiv (m1 m2 : JsMap) : Prop :=
  ∀ k, jsGet m1 k = jsGet m2 k

/-- Characters of a raw (not yet percent-encoded) query value that the
decode pipeline passes through unchanged: anything except the ampersand
and hash separators, the percent and plus escapes, and a line
terminator. -/
def plainValChar (c : Char) : Bool :=
  c ≠ '&' && c ≠ '#' && c ≠ '%' && c ≠ '+' && ¬ isLineTerm c

/-- Characters of a raw query key: plain value characters except the
key/value separator. -/
def plainKeyChar (c : Char) : Bool :=
  plainValChar c && c ≠ '='

/-- A parser remainder that cannot extend a JSON value: empty, or starting
with a separator or a closing bracket (exactly the shapes that follow a
rendered value inside a rendered array or object, or at the top level). -/
def jsonDelimRest (cs : List Char) : Prop :=
  cs = [] ∨ ∃ d t, cs = d :: t ∧ (d = ',' ∨ d = ']' ∨ d = rcurly)

/-! ### The percent-encoding round trip -/

set_option maxRecDepth 8192

theorem formDecodeStep_len (c : Char) (rest : List Char) :
    (formDecodeStep c rest).2.length ≤ rest.length := by
  rw [formDecodeStep.eq_def]
  repeat' split
  all_goals (simp only [List.length_cons, List.length_nil]; omega)

theorem formDecodeBytesF_fuel : ∀ (f1 f2 : Nat) (cs : List Char),
    cs.length ≤ f1 → cs.length ≤ f2 → formDecodeBytesF f1 cs = formDecodeBytesF f2 cs
  | 0, 0, _, _, _ => rfl
  | 0, _ + 1, cs, h1, _ => by
    have hcs : cs = [] := by cases cs with | nil => rfl | cons a b => simp at h1
    subst hcs; rfl
  | _ + 1, 0, cs, _, h2 => by
    have hcs : cs = [] := by cases cs with | nil => rfl | cons a b => simp at h2
    subst hcs; rfl
  | _ + 1, _ + 1, [], _, _ => rfl
  | f1 + 1, f2 + 1, c :: rest, h1, h2 => by
    rw [formDecodeBytesF, formDecodeBytesF]
    have hl := formDecodeStep_len c rest
    simp only [List.length_cons] at h1 h2
    rw [formDecodeBytesF_fuel f1 f2 (formDecodeStep c rest).2
      (by omega) (by omega)]

theorem formDecodeBytes_cons (c : Char) (rest : List Char) :
    formDecodeBytes (c :: rest)
      = (formDecodeStep c rest).1 ++ formDecodeBytes (formDecodeStep c rest).2 := by
  show formDecodeBytesF (c :: rest).length (c :: rest)
    = (formDecodeStep c rest).1
      ++ formDecodeBytesF (formDecodeStep c rest).2.length (formDecodeStep c rest).2
  rw [show (c :: rest).length = rest.length + 1 from rfl, formDecodeBytesF]
  rw [formDecodeBytesF_fuel rest.length (formDecodeStep c rest).2.length
    (formDecodeStep c rest).2 (formDecodeStep_len c rest) (Nat.le_refl _)]

theorem utf8DecodeStep_len (b0 : Nat) (rest : List Nat) :
    (utf8DecodeStep b0 rest).2.length ≤ rest.length := by
  rw [utf8DecodeStep.eq_def]
  repeat' split
  all_goals (simp only [List.length_cons, List.length_nil]; omega)

theorem utf8DecodeCharsF_fuel : ∀ (f1 f2 : Nat) (bs : List Nat),
    bs.length ≤ f1 → bs.length ≤ f2 → utf8DecodeCharsF f1 bs = utf8DecodeCharsF f2 bs
  | 0, 0, _, _, _ => rfl
  | 0, _ + 1, bs, h1, _ => by
    have hbs : bs = [] := by cases bs with | nil => rfl | cons a b => simp at h1
    subst hbs; rfl
  | _ + 1, 0, bs, _, h2 => by
    have hbs : bs = [] := by cases bs with | nil => rfl | cons a b => simp at h2
    subst hbs; rfl
  | _ + 1, _ + 1, [], _, _ => rfl
  | f1 + 1, f2 + 1, b0 :: rest, h1, h2 => by
    rw [utf8DecodeCharsF, utf8DecodeCharsF]
    have hl := utf8DecodeStep_len b0 rest
    simp only [List.length_cons] at h1 h2
    rw [utf8DecodeCharsF_fuel f1 f2 (utf8DecodeStep b0 rest).2
      (by omega) (by omega)]

theorem utf8DecodeChars_cons (b0 : Nat) (rest : List Nat) :
    utf8DecodeChars (b0 :: rest)
      = (utf8DecodeStep b0 rest).1 :: utf8DecodeChars (utf8DecodeStep b0 rest).2 := by
  show utf8DecodeCharsF (b0 :: rest).length (b0 :: rest)
    = (utf8DecodeStep b0 rest).1
      :: utf8DecodeCharsF (utf8DecodeStep b0 rest).2.length (utf8DecodeStep b0 rest).2
  rw [show (b0 :: rest).length = rest.length + 1 from rfl, utf8DecodeCharsF]
  rw [utf8DecodeCharsF_fuel rest.length (utf8DecodeStep b0 rest).2.length
    (utf8DecodeStep b0 rest).2 (utf8DecodeStep_len b0 rest) (Nat.le_refl _)]

theorem natDigitsF_fuel : ∀ (f1 f2 n : Nat), n < f1 → n < f2 →
    natDigitsF f1 n = natDigitsF f2 n
  | 0, _, _, h1, _ => absurd h1 (by omega)
  | _ + 1, 0, _, _, h2 => absurd h2 (by omega)
  | f1 + 1, f2 + 1, n, h1, h2 => by
    rw [natDigitsF, natDigitsF]
    by_cases h : n < 10
    · rw [if_pos h, if_pos h]
    · rw [if_neg h, if_neg h]
      have hd : n / 10 < n := Nat.div_lt_self (by omega) (by omega)
      rw [natDigitsF_fuel f1 f2 (n / 10) (by omega) (by omega)]

theorem natDigits_unfold (n : Nat) :
    natDigits n = if n < 10 then [Char.ofNat (48 + n)]
      else natDigits (n / 10) ++ [Char.ofNat (48 + n % 10)] := by
  rw [natDigits, natDigitsF]
  by_cases h : n < 10
  · rw [if_pos h, if_pos h]
  · rw [if_neg h, if_neg h, natDigits]
    have hd : n / 10 < n := Nat.div_lt_self (by omega) (by omega)
    rw [natDigitsF_fuel n (n / 10 + 1) (n / 10) (by omega) (by omega)]

theorem char_toNat_ofNat (n : Nat) (h : n.isValidChar) : (Char.ofNat n).toNat = n := by
  simp only [Char.ofNat, dif_pos h, Char.ofNatAux, Char.toNat]
  exact rfl

theorem char_valid_ranges (c : Char) :
    c.toNat < 0xD800 ∨ (0xDFFF < c.toNat ∧ c.toNat < 0x110000) := c.valid

theorem hex_inv : ∀ b < 256,
    (isHexDigit (hexDigitUpper (b / 16)) && isHexDigit (hexDigitUpper (b % 16))) = true
    ∧ hexVal (hexDigitUpper (b / 16)) * 16 + hexVal (hexDigitUpper (b % 16)) = b := by decide

theorem utf8_decode_one (n : Nat) (bs : List Nat) (h : n < 0x80) :
    utf8DecodeChars (n :: bs) = Char.ofNat n :: utf8DecodeChars bs := by
  have hstep : utf8DecodeStep n bs = (Char.ofNat n, bs) := by
    simp [utf8DecodeStep, h]
  rw [utf8DecodeChars_cons, hstep]

theorem utf8_decode_two (n : Nat) (bs : List Nat) (h1 : 0x80 ≤ n) (h2 : n < 0x800) :
    utf8DecodeChars ((0xC0 + n / 64) :: (0x80 + n % 64) :: bs)
      = Char.ofNat n :: utf8DecodeChars bs := by
  have ha : ¬ (0xC0 + n / 64 < 0x80) := by omega
  have hb : 0xC2 ≤ 0xC0 + n / 64 := by omega
  have hc : 0xC0 + n / 64 < 0xE0 := by omega
  have hd : 0x80 ≤ 0x80 + n % 64 := by omega
  have he : 0x80 + n % 64 < 0xC0 := by omega
  have harith : n / 64 * 64 + n % 64 = n := by omega
  have hstep : utf8DecodeStep (0xC0 + n / 64) ((0x80 + n % 64) :: bs) = (Char.ofNat n, bs) := by
    simp [utf8DecodeStep, ha, hb, hc, hd, he, harith]
  rw [utf8DecodeChars_cons, hstep]

theorem utf8_decode_three (n : Nat) (bs : List Nat) (h1 : 0x800 ≤ n) (h2 : n < 0x10000)
    (h3 : ¬ (0xD800 ≤ n ∧ n ≤ 0xDFFF)) :
    utf8DecodeChars ((0xE0 + n / 4096) :: (0x80 + n / 64 % 64) :: (0x80 + n % 64) :: bs)
      = Char.ofNat n :: utf8DecodeChars bs := by
  have ha : ¬ (0xE0 + n / 4096 < 0x80) := by omega
  have hb : ¬ (0xC2 ≤ 0xE0 + n / 4096 ∧ 0xE0 + n / 4096 < 0xE0) := by omega
  have hc : 0xE0 ≤ 0xE0 + n / 4096 := by omega
  have hd : 0xE0 + n / 4096 < 0xF0 := by omega
  have he1 : 0x80 ≤ 0x80 + n / 64 % 64 := by omega
  have he2 : 0x80 + n / 64 % 64 < 0xC0 := by omega
  have hf1 : 0x80 ≤ 0x80 + n % 64 := by omega
  have hf2 : 0x80 + n % 64 < 0xC0 := by omega
  have hfold : n / 4096 * 4096 + n / 64 % 64 * 64 + n % 64 = n := by omega
  have hstep : utf8DecodeStep (0xE0 + n / 4096)
      ((0x80 + n / 64 % 64) :: (0x80 + n % 64) :: bs) = (Char.ofNat n, bs) := by
    simp [utf8DecodeStep, ha, hb, hc, hd, he1, he2, hf1, hf2, hfold, h1, h3]
  rw [utf8DecodeChars_cons, hstep]

theorem utf8_decode_four (n : Nat) (bs : List Nat) (h1 : 0x10000 ≤ n) (h2 : n < 0x110000) :
    utf8DecodeChars ((0xF0 + n / 262144) :: (0x80 + n / 4096 % 64) :: (0x80 + n / 64 % 64)
        :: (0x80 + n % 64) :: bs)
      = Char.ofNat n :: utf8DecodeChars bs := by
  have ha : ¬ (0xF0 + n / 262144 < 0x80) := by omega
  have hb : ¬ (0xC2 ≤ 0xF0 + n / 262144 ∧ 0xF0 + n / 262144 < 0xE0) := by omega
  have hb2 : ¬ (0xE0 ≤ 0xF0 + n / 262144 ∧ 0xF0 + n / 262144 < 0xF0) := by omega
  have hc : 0xF0 ≤ 0xF0 + n / 262144 := by omega
  have hd : 0xF0 + n / 262144 < 0xF5 := by omega
  have he1 : 0x80 ≤ 0x80 + n / 4096 % 64 := by omega
  have he2 : 0x80 + n / 4096 % 64 < 0xC0 := by omega
  have hf1 : 0x80 ≤ 0x80 + n / 64 % 64 := by omega
  have hf2 : 0x80 + n / 64 % 64 < 0xC0 := by omega
  have hg1 : 0x80 ≤ 0x80 + n % 64 := by omega
  have hg2 : 0x80 + n % 64 < 0xC0 := by omega
  have hfold : n / 262144 * 262144 + n / 4096 % 64 * 4096 + n / 64 % 64 * 64 + n % 64 = n := by
    omega
  have hstep : utf8DecodeStep (0xF0 + n / 262144)
      ((0x80 + n / 4096 % 64) :: (0x80 + n / 64 % 64) :: (0x80 + n % 64) :: bs)
      = (Char.ofNat n, bs) := by
    simp [utf8DecodeStep, ha, hb, hb2, hc, hd, he1, he2, hf1, hf2, hg1, hg2, hfold, h1, h2]
  rw [utf8DecodeChars_cons, hstep]

theorem utf8_decode_encode (c : Char) (bs : List Nat) :
    utf8DecodeChars (utf8Bytes c.toNat ++ bs) = c :: utf8DecodeChars bs := by
  have hv := char_valid_ranges c
  rw [utf8Bytes]
  by_cases h1 : c.toNat < 0x80
  · rw [if_pos h1]
    simp only [List.cons_append, List.nil_append]
    rw [utf8_decode_one _ _ h1, Char.ofNat_toNat]
  · rw [if_neg h1]
    by_cases h2 : c.toNat < 0x800
    · rw [if_pos h2]
      simp only [List.cons_append, List.nil_append]
      rw [utf8_decode_two _ _ (by omega) h2, Char.ofNat_toNat]
    · rw [if_neg h2]
      by_cases h3 : c.toNat < 0x10000
      · rw [if_pos h3]
        simp only [List.cons_append, List.nil_append]
        rw [utf8_decode_three _ _ (by omega) h3 (by omega), Char.ofNat_toNat]
      · rw [if_neg h3]
        simp only [List.cons_append, List.nil_append]
        rw [utf8_decode_four _ _ (by omega) (by omega), Char.ofNat_toNat]

theorem utf8_decode_flat (cs : List Char) :
    utf8DecodeChars (cs.flatMap (fun c => utf8Bytes c.toNat)) = cs := by
  induction cs with
  | nil => simp [utf8DecodeChars, utf8DecodeCharsF]
  | cons c rest ih => rw [List.flatMap_cons, utf8_decode_encode, ih]

theorem unescaped_ascii (c : Char) (h : isUnescapedURIChar c = true) : c.toNat < 0x80 := by
  rw [isUnescapedURIChar] at h
  simp only [Bool.or_eq_true, Bool.and_eq_true, decide_eq_true_eq] at h
  rcases h with ((((((((((⟨h1, h2⟩ | ⟨h1, h2⟩) | ⟨h1, h2⟩) | h) | h) | h) | h) | h) | h) | h) | h) | h
      <;> first
    | omega
    | (subst h; decide)

theorem unescaped_ne_plus_percent (c : Char) (h : isUnescapedURIChar c = true) :
    c ≠ '+' ∧ c ≠ '%' := by
  constructor
  · intro he; subst he; exact absurd h (by decide)
  · intro he; subst he; exact absurd h (by decide)

theorem formDecodeBytes_other (c : Char) (rest : List Char) (h1 : c ≠ '+') (h2 : c ≠ '%') :
    formDecodeBytes (c :: rest) = utf8Bytes c.toNat ++ formDecodeBytes rest := by
  have hstep : formDecodeStep c rest = (utf8Bytes c.toNat, rest) := by
    simp [formDecodeStep, h1, h2]
  rw [formDecodeBytes_cons, hstep]

theorem formDecodeBytes_percent (b : Nat) (hb : b < 256) (rest : List Char) :
    formDecodeBytes (percentByte b ++ rest) = b :: formDecodeBytes rest := by
  obtain ⟨hhex, hval⟩ := hex_inv b hb
  have hstep : formDecodeStep '%' (hexDigitUpper (b / 16) :: hexDigitUpper (b % 16) :: rest)
      = ([b], rest) := by
    simp [formDecodeStep, hhex, hval]
  rw [percentByte]
  simp only [List.cons_append, List.nil_append]
  rw [formDecodeBytes_cons, hstep]
  simp

theorem utf8Bytes_lt_256 (n : Nat) (hn : n < 0x110000) : ∀ b ∈ utf8Bytes n, b < 256 := by
  intro b hb
  rw [utf8Bytes] at hb
  by_cases h1 : n < 0x80
  · rw [if_pos h1] at hb
    simp only [List.mem_singleton] at hb
    omega
  · rw [if_neg h1] at hb
    by_cases h2 : n < 0x800
    · rw [if_pos h2] at hb
      simp only [List.mem_cons, List.mem_singleton, List.not_mem_nil, or_false] at hb
      rcases hb with hb | hb <;> omega
    · rw [if_neg h2] at hb
      by_cases h3 : n < 0x10000
      · rw [if_pos h3] at hb
        simp only [List.mem_cons, List.mem_singleton, List.not_mem_nil, or_false] at hb
        rcases hb with hb | hb | hb <;> omega
      · rw [if_neg h3] at hb
        simp only [List.mem_cons, List.mem_singleton, List.not_mem_nil, or_false] at hb
        rcases hb with hb | hb | hb | hb <;> omega

theorem formDecodeBytes_percent_flat (bs : List Nat) (hb : ∀ b ∈ bs, b < 256)
    (rest : List Char) :
    formDecodeBytes (bs.flatMap percentByte ++ rest) = bs ++ formDecodeBytes rest := by
  induction bs with
  | nil => simp
  | cons b tail ih =>
    rw [List.flatMap_cons, List.append_assoc,
      formDecodeBytes_percent b (hb b (List.mem_cons_self b tail)) _,
      ih (fun x hx => hb x (List.mem_cons_of_mem b hx))]
    rfl

theorem encURI_cons (c : Char) (rest : List Char) :
    encodeURIComponentChars (c :: rest)
      = (if isUnescapedURIChar c then [c] else (utf8Bytes c.toNat).flatMap percentByte)
        ++ encodeURIComponentChars rest := by
  simp [encodeURIComponentChars]

theorem formDecodeBytes_encURI (cs : List Char) :
    formDecodeBytes (encodeURIComponentChars cs)
      = cs.flatMap (fun c => utf8Bytes c.toNat) := by
  induction cs with
  | nil => simp [encodeURIComponentChars, formDecodeBytes, formDecodeBytesF]
  | cons c rest ih =>
    rw [encURI_cons, List.flatMap_cons]
    by_cases hu : isUnescapedURIChar c
    · obtain ⟨h1, h2⟩ := unescaped_ne_plus_percent c hu
      rw [if_pos hu]
      simp only [List.cons_append, List.nil_append]
      rw [formDecodeBytes_other c _ h1 h2, ih]
    · rw [if_neg hu]
      rw [formDecodeBytes_percent_flat _ (utf8Bytes_lt_256 c.toNat (by
        have := char_valid_ranges c
        omega)) _, ih]

theorem formUrlDecode_encURI (cs : List Char) :
    formUrlDecodeChars (encodeURIComponentChars cs) = cs := by
  rw [formUrlDecodeChars, formDecodeBytes_encURI, utf8_decode_flat]

theorem formDecodeBytes_plain (cs : List Char) (h : ∀ c ∈ cs, c ≠ '+' ∧ c ≠ '%') :
    formDecodeBytes cs = cs.flatMap (fun c => utf8Bytes c.toNat) := by
  induction cs with
  | nil => simp [formDecodeBytes, formDecodeBytesF]
  | cons c rest ih =>
    obtain ⟨h1, h2⟩ := h c (List.mem_cons_self c rest)
    rw [formDecodeBytes_other c _ h1 h2, List.flatMap_cons,
      ih (fun x hx => h x (List.mem_cons_of_mem c hx))]

theorem formUrlDecode_plain (cs : List Char) (h : ∀ c ∈ cs, c ≠ '+' ∧ c ≠ '%') :
    formUrlDecodeChars cs = cs := by
  rw [formUrlDecodeChars, formDecodeBytes_plain cs h, utf8_decode_flat]

theorem hexUpper_unescaped : ∀ k < 16, isUnescapedURIChar (hexDigitUpper k) = true := by decide

theorem encURI_chars (cs : List Char) :
    ∀ x ∈ encodeURIComponentChars cs, isUnescapedURIChar x = true ∨ x = '%' := by
  induction cs with
  | nil => intro x hx; exact absurd hx (List.not_mem_nil x)
  | cons c rest ih =>
    intro x hx
    rw [encURI_cons] at hx
    rcases List.mem_append.mp hx with hx | hx
    · by_cases hu : isUnescapedURIChar c
      · rw [if_pos hu] at hx
        simp only [List.mem_singleton] at hx
        subst hx; exact Or.inl hu
      · rw [if_neg hu] at hx
        obtain ⟨b, hbmem, hxb⟩ := List.mem_flatMap.mp hx
        have hb256 : b < 256 := utf8Bytes_lt_256 c.toNat (by
          have := char_valid_ranges c
          omega) b hbmem
        rw [percentByte] at hxb
        simp only [List.mem_cons, List.mem_singleton, List.not_mem_nil, or_false] at hxb
        rcases hxb with hxb | hxb | hxb
        · exact Or.inr hxb
        · subst hxb; exact Or.inl (hexUpper_unescaped _ (by omega))
        · subst hxb; exact Or.inl (hexUpper_unescaped _ (by omega))
    · exact ih x hx

/-! ### The JSON stringify/parse round trip -/

theorem natDigits_digits : ∀ n : Nat, ∀ c ∈ natDigits n, isDigitChar c = true := by
  intro n
  induction n using Nat.strong_induction_on with
  | _ n ih =>
    intro c hc
    rw [natDigits_unfold] at hc
    by_cases h : n < 10
    · rw [if_pos h] at hc
      simp only [List.mem_singleton] at hc
      subst hc
      rw [isDigitChar, char_toNat_ofNat _ (by left; omega)]
      simp; omega
    · rw [if_neg h] at hc
      rcases List.mem_append.mp hc with hc | hc
      · exact ih (n / 10) (Nat.div_lt_self (by omega) (by omega)) c hc
      · simp only [List.mem_singleton] at hc
        subst hc
        rw [isDigitChar, char_toNat_ofNat _ (by left; omega)]
        have := Nat.mod_lt n (show 0 < 10 by omega)
        simp; omega

theorem natDigits_ne_nil (n : Nat) : natDigits n ≠ [] := by
  rw [natDigits_unfold]
  by_cases h : n < 10
  · rw [if_pos h]; simp
  · rw [if_neg h]; simp

theorem natDigits_head_ne_zero (n : Nat) (hn : 1 ≤ n) :
    (natDigits n).head? ≠ some '0' := by
  induction n using Nat.strong_induction_on with
  | _ n ih =>
    rw [natDigits_unfold]
    by_cases h : n < 10
    · rw [if_pos h]
      simp only [List.head?_cons]
      intro he
      have he2 : Char.ofNat (48 + n) = '0' := Option.some.inj he
      have : (Char.ofNat (48 + n)).toNat = '0'.toNat := by rw [he2]
      rw [char_toNat_ofNat _ (by left; omega)] at this
      simp at this
      omega
    · rw [if_neg h]
      rcases hx : natDigits (n / 10) with _ | ⟨c, t⟩
      · exact absurd hx (natDigits_ne_nil _)
      · have := ih (n / 10) (Nat.div_lt_self (by omega) (by omega)) (by omega)
        rw [hx] at this
        simpa using this

theorem digitsToNat_append_digit (ds : List Char) (c : Char) :
    digitsToNat (ds ++ [c]) = digitsToNat ds * 10 + (c.toNat - 48) := by
  rw [digitsToNat, digitsToNat, List.foldl_append]
  simp

theorem digitsToNat_natDigits : ∀ n : Nat, digitsToNat (natDigits n) = n := by
  intro n
  induction n using Nat.strong_induction_on with
  | _ n ih =>
    rw [natDigits_unfold]
    by_cases h : n < 10
    · rw [if_pos h]
      rw [show [Char.ofNat (48 + n)] = [] ++ [Char.ofNat (48 + n)] from rfl,
        digitsToNat_append_digit, char_toNat_ofNat _ (by left; omega)]
      simp [digitsToNat]
    · rw [if_neg h, digitsToNat_append_digit,
        ih (n / 10) (Nat.div_lt_self (by omega) (by omega)),
        char_toNat_ofNat _ (by left; omega)]
      omega

theorem jsonTakeDigits_stop (cs : List Char)
    (h : cs = [] ∨ ∃ c t, cs = c :: t ∧ isDigitChar c = false) :
    jsonTakeDigits cs = ([], cs) := by
  rcases h with h | ⟨c, t, rfl, hc⟩
  · subst h; rfl
  · rw [jsonTakeDigits, if_neg (by simp [hc])]

theorem jsonTakeDigits_run (ds : List Char) (hds : ∀ c ∈ ds, isDigitChar c = true)
    (rest : List Char) (hrest : jsonTakeDigits rest = ([], rest)) :
    jsonTakeDigits (ds ++ rest) = (ds, rest) := by
  induction ds with
  | nil => simpa using hrest
  | cons c t ih =>
    have hc : isDigitChar c = true := hds c (List.mem_cons_self c t)
    rw [List.cons_append, jsonTakeDigits, if_pos hc,
      ih (fun x hx => hds x (List.mem_cons_of_mem c hx))]

theorem delim_take_digits (cs : List Char) (h : jsonDelimRest cs) :
    jsonTakeDigits cs = ([], cs) := by
  apply jsonTakeDigits_stop
  rcases h with rfl | ⟨d, t, rfl, hd | hd | hd⟩
  · left; rfl
  · right; exact ⟨d, t, rfl, by subst hd; decide⟩
  · right; exact ⟨d, t, rfl, by subst hd; decide⟩
  · right; exact ⟨d, t, rfl, by subst hd; decide⟩

theorem natDigits_noLeadZero (n : Nat) :
    ¬ ((natDigits n).head? = some '0' ∧ (natDigits n).length ≠ 1) := by
  by_cases h : n = 0
  · subst h
    intro ⟨_, hlen⟩
    exact hlen (by rw [natDigits]; rfl)
  · intro ⟨hhead, _⟩
    exact natDigits_head_ne_zero n (by omega) hhead

theorem jsonParseIntNum_intChars (i : Int) (rest : List Char) (h : jsonDelimRest rest) :
    jsonParseIntNum (intChars i ++ rest) = some (.num i, rest) := by
  have htake : jsonTakeDigits (natDigits i.natAbs ++ rest) = (natDigits i.natAbs, rest) :=
    jsonTakeDigits_run _ (natDigits_digits i.natAbs) rest (delim_take_digits rest h)
  have hnz : ¬ (natDigits i.natAbs = []) := natDigits_ne_nil i.natAbs
  have hlz := natDigits_noLeadZero i.natAbs
  have hval := digitsToNat_natDigits i.natAbs
  by_cases hneg : i < 0
  · have harg : intChars i ++ rest = '-' :: (natDigits i.natAbs ++ rest) := by
      rw [intChars, if_pos hneg]; rfl
    rw [harg, jsonParseIntNum]
    simp only [htake, hval]
    rw [if_neg hnz, if_neg (by simpa using hlz)]
    rw [show ((if True then (-1 : Int) else 1) * (i.natAbs : Int)) = i from by
      rw [if_pos trivial]; omega]
    rcases h with rfl | ⟨d, t, rfl, hd | hd | hd⟩
    · rfl
    all_goals (subst hd; rfl)
  · obtain ⟨c0, t0, h0⟩ : ∃ c0 t0, natDigits i.natAbs = c0 :: t0 := by
      rcases hx : natDigits i.natAbs with _ | ⟨c0, t0⟩
      · exact absurd hx hnz
      · exact ⟨c0, t0, rfl⟩
    have hc0 : isDigitChar c0 = true := natDigits_digits i.natAbs c0 (by rw [h0]; simp)
    have hc0m : c0 ≠ '-' := by
      intro he; subst he; exact absurd hc0 (by decide)
    have harg : intChars i ++ rest = c0 :: (t0 ++ rest) := by
      rw [intChars, if_neg hneg, h0]; rfl
    rw [harg, jsonParseIntNum]
    simp only [hc0m]
    · have htake2 : jsonTakeDigits (c0 :: (t0 ++ rest)) = (c0 :: t0, rest) := by
        rw [show c0 :: (t0 ++ rest) = (c0 :: t0) ++ rest from rfl, ← h0]
        exact htake
      simp only [htake2]
      rw [← h0]
      simp only [hval]
      rw [if_neg hnz, if_neg (by simpa using hlz)]
      rw [show ((if false = true then (-1 : Int) else 1) * (i.natAbs : Int)) = i from by
        rw [if_neg (by simp)]; omega]
      rcases h with rfl | ⟨d, t, rfl, hd | hd | hd⟩
      · rfl
      all_goals (subst hd; rfl)
    · intro r he
      exact hc0m (List.cons.inj he).1

theorem hexLower_inv : ∀ k < 16,
    isHexDigit (hexDigitLower k) = true ∧ hexVal (hexDigitLower k) = k := by decide

theorem jsonParseStrAux_escape (c : Char) (acc rest : List Char) :
    jsonParseStrAux acc (jsonEscapeChar c ++ rest) = jsonParseStrAux (c :: acc) rest := by
  rw [jsonEscapeChar]
  by_cases h1 : c = '"'
  · subst h1; rw [if_pos rfl]; rfl
  rw [if_neg h1]
  by_cases h2 : c = '\\'
  · subst h2; rw [if_pos rfl]; rfl
  rw [if_neg h2]
  by_cases h3 : c = Char.ofNat 8
  · subst h3; rw [if_pos rfl]; rfl
  rw [if_neg h3]
  by_cases h4 : c = '\t'
  · subst h4; rw [if_pos rfl]; rfl
  rw [if_neg h4]
  by_cases h5 : c = '\n'
  · subst h5; rw [if_pos rfl]; rfl
  rw [if_neg h5]
  by_cases h6 : c = Char.ofNat 12
  · subst h6; rw [if_pos rfl]; rfl
  rw [if_neg h6]
  by_cases h7 : c = '\r'
  · subst h7; rw [if_pos rfl]; rfl
  rw [if_neg h7]
  by_cases h8 : c.toNat < 0x20
  · rw [if_pos h8]
    simp only [List.cons_append, List.nil_append]
    have hh1 := hexLower_inv (c.toNat / 16) (by omega)
    have hh2 := hexLower_inv (c.toNat % 16) (by omega)
    have hhex : jsonHex4 '0' '0' (hexDigitLower (c.toNat / 16)) (hexDigitLower (c.toNat % 16))
        = some c.toNat := by
      rw [jsonHex4, if_pos (by simp [hh1.1, hh2.1]; decide)]
      simp only [hh1.2, hh2.2, show hexVal '0' = 0 from by decide, Option.some.injEq]
      omega
    rw [jsonParseStrAux, hhex]
    simp only [Char.ofNat_toNat]
  · rw [if_neg h8]
    simp only [List.cons_append, List.nil_append]
    rw [jsonParseStrAux.eq_def]
    simp [h1, h2, h8]

theorem jsonParseStrAux_body (cs : List Char) : ∀ (acc rest : List Char),
    jsonParseStrAux acc (cs.flatMap jsonEscapeChar ++ '"' :: rest)
      = some (⟨acc.reverse ++ cs⟩, rest) := by
  induction cs with
  | nil =>
    intro acc rest
    simp [jsonParseStrAux]
  | cons c cs ih =>
    intro acc rest
    rw [List.flatMap_cons, List.append_assoc, jsonParseStrAux_escape, ih]
    simp

theorem jsonParse_strLit (s : String) (rest : List Char) :
    jsonParseStrAux [] (s.data.flatMap jsonEscapeChar ++ '"' :: rest) = some (s, rest) := by
  rw [jsonParseStrAux_body]
  rfl

theorem skipJsonWs_cons (c : Char) (t : List Char) (h : isJsonWsChar c = false) :
    skipJsonWs (c :: t) = c :: t := by
  simp [skipJsonWs, List.dropWhile, h]

theorem digit_char_facts (c : Char) (h : isDigitChar c = true) :
    isJsonWsChar c = false ∧ c ≠ ']' ∧ c ≠ rcurly ∧ c ≠ ',' ∧ c ≠ 'n' ∧ c ≠ 't'
      ∧ c ≠ 'f' ∧ c ≠ '"' ∧ c ≠ '[' ∧ c ≠ lcurly ∧ c ≠ '-' ∧ c ≠ '.' ∧ c ≠ 'e' ∧ c ≠ 'E' := by
  rw [isDigitChar] at h
  simp only [Bool.and_eq_true, decide_eq_true_eq] at h
  refine ⟨?_, ?_, ?_, ?_, ?_, ?_, ?_, ?_, ?_, ?_, ?_, ?_, ?_, ?_⟩
  · rw [isJsonWsChar]
    simp only [Bool.or_eq_false_iff, decide_eq_false_iff_not]
    refine ⟨⟨⟨?_, ?_⟩, ?_⟩, ?_⟩ <;> (intro he; subst he; revert h; decide)
  all_goals (intro he; subst he; revert h; decide)

theorem jsonStringify_head (v : JsVal) :
    ∃ c t, jsonStringifyChars v = c :: t ∧ isJsonWsChar c = false ∧ c ≠ ']' ∧ c ≠ rcurly
      ∧ c ≠ ',' := by
  cases v with
  | str s => exact ⟨'"', _, rfl, by decide, by decide, by decide, by decide⟩
  | bool b =>
    cases b with
    | true => exact ⟨'t', _, rfl, by decide, by decide, by decide, by decide⟩
    | false => exact ⟨'f', _, rfl, by decide, by decide, by decide, by decide⟩
  | null => exact ⟨'n', _, rfl, by decide, by decide, by decide, by decide⟩
  | arr xs => exact ⟨'[', _, rfl, by decide, by decide, by decide, by decide⟩
  | obj fs => exact ⟨lcurly, _, rfl, by decide, by decide, by decide, by decide⟩
  | num i =>
    by_cases hneg : i < 0
    · refine ⟨'-', natDigits i.natAbs, ?_, by decide, by decide, by decide, by decide⟩
      simp only [jsonStringifyChars, intChars, if_pos hneg]
      rfl
    · obtain ⟨c0, t0, h0⟩ : ∃ c0 t0, natDigits i.natAbs = c0 :: t0 := by
        rcases hx : natDigits i.natAbs with _ | ⟨c0, t0⟩
        · exact absurd hx (natDigits_ne_nil _)
        · exact ⟨c0, t0, rfl⟩
      have hc0 : isDigitChar c0 = true := natDigits_digits i.natAbs c0 (by rw [h0]; simp)
      obtain ⟨hws, hrb, hrc, hcm, _⟩ := digit_char_facts c0 hc0
      refine ⟨c0, t0, ?_, hws, hrb, hrc, hcm⟩
      simp only [jsonStringifyChars, intChars, if_neg hneg, h0]
      rfl

theorem jsGet_append (m1 m2 : JsMap) (k : String) :
    jsGet (m1 ++ m2) k = match jsGet m1 k with
      | some v => some v
      | none => jsGet m2 k := by
  induction m1 with
  | nil => simp [jsGet]
  | cons kv rest ih =>
    obtain ⟨k1, v1⟩ := kv
    by_cases h : k1 = k
    · simp [jsGet, h]
    · simp only [List.cons_append, jsGet, if_neg h]
      exact ih

theorem jsHasKey_append (m1 m2 : JsMap) (k : String) :
    jsHasKey (m1 ++ m2) k = (jsHasKey m1 k || jsHasKey m2 k) := by
  rw [jsHasKey, jsHasKey, jsHasKey, jsGet_append]
  cases jsGet m1 k <;> simp

theorem jsAssign_fresh (m : JsMap) (k : String) (v : JsVal) (h : jsHasKey m k = false) :
    jsAssign m k v = m ++ [(k, v)] := by
  induction m with
  | nil => rfl
  | cons kv rest ih =>
    obtain ⟨k1, v1⟩ := kv
    rw [jsHasKey, jsGet] at h
    by_cases hk : k1 = k
    · rw [if_pos hk] at h
      simp at h
    · rw [if_neg hk] at h
      rw [jsAssign, if_neg hk, List.cons_append, ih h]

theorem keysNodupB_cons (k : String) (ks : List String) :
    keysNodupB (k :: ks) = (ks.all (fun x => ¬ (x = k)) && keysNodupB ks) := rfl

theorem jsObjFromEntries_fold (fs : List (String × JsVal)) : ∀ acc : JsMap,
    keysNodupB (fs.map Prod.fst) = true →
    (∀ kv ∈ fs, jsHasKey acc kv.1 = false) →
    fs.foldl (fun m kv => jsAssign m kv.1 kv.2) acc = acc ++ fs := by
  induction fs with
  | nil => intro acc _ _; simp
  | cons kv rest ih =>
    intro acc hnodup hfresh
    obtain ⟨k, v⟩ := kv
    rw [List.map_cons, keysNodupB_cons] at hnodup
    simp only [Bool.and_eq_true, Bool.not_eq_true'] at hnodup
    rw [List.foldl_cons, jsAssign_fresh acc k v (hfresh (k, v) (List.mem_cons_self _ _))]
    rw [ih (acc ++ [(k, v)]) hnodup.2]
    · simp
    · intro kv2 hkv2
      rw [jsHasKey_append]
      have h1 : jsHasKey acc kv2.1 = false := hfresh kv2 (List.mem_cons_of_mem _ hkv2)
      have hkne : k ≠ kv2.1 := by
        intro he
        have hmem : kv2.1 ∈ rest.map Prod.fst := List.mem_map_of_mem Prod.fst hkv2
        have hall := List.all_eq_true.mp hnodup.1 kv2.1 hmem
        simp only [decide_eq_true_eq] at hall
        exact hall he.symm
      have h2 : jsHasKey [(k, v)] kv2.1 = false := by
        rw [jsHasKey, jsGet]
        rw [if_neg hkne]
        rfl
      rw [h1, h2]
      rfl

theorem jsObjFromEntries_nodup (fs : List (String × JsVal))
    (h : keysNodupB (fs.map Prod.fst) = true) :
    jsObjFromEntries fs = fs := by
  rw [jsObjFromEntries, jsObjFromEntries_fold fs [] h (by intro kv _; rfl)]
  rfl

theorem jsonStringify_len_pos (v : JsVal) : 1 ≤ (jsonStringifyChars v).length := by
  obtain ⟨c, t, hren, _⟩ := jsonStringify_head v
  rw [hren]
  simp

theorem jsonElemsChars_cons (e : JsVal) (es : List JsVal) :
    jsonElemsChars (e :: es)
      = jsonStringifyChars e ++ (match es with
        | [] => []
        | _ :: _ => ',' :: jsonElemsChars es) := by
  cases es <;> simp [jsonElemsChars]

theorem jsonMembersChars_cons (k : String) (v : JsVal) (fs : List (String × JsVal)) :
    jsonMembersChars ((k, v) :: fs)
      = jsonStrLit k ++ ':' :: (jsonStringifyChars v ++ (match fs with
        | [] => []
        | _ :: _ => ',' :: jsonMembersChars fs)) := by
  cases fs <;> simp [jsonMembersChars]
theorem jsonParseVal_lbrack (f : Nat) (t : List Char) :
    jsonParseVal (f + 1) ('[' :: t)
      = (match skipJsonWs t with
        | ']' :: r1 => some (JsVal.arr [], r1)
        | r1 =>
          match jsonParseElems f r1 with
          | some (es2, r2) => some (JsVal.arr es2, r2)
          | none => none) := rfl

theorem jsonParseVal_lcurly (f : Nat) (t : List Char) :
    jsonParseVal (f + 1) (lcurly :: t)
      = (match skipJsonWs t with
        | d :: r1 =>
          if d = rcurly then some (JsVal.obj [], r1)
          else
            match jsonParseMembers f (d :: r1) with
            | some (fs2, r2) => some (JsVal.obj (jsObjFromEntries fs2), r2)
            | none => none
        | [] => none) := rfl

theorem skipJsonWs_quote (t : List Char) : skipJsonWs ('"' :: t) = '"' :: t :=
  skipJsonWs_cons _ _ (by decide)

theorem skipJsonWs_colon (t : List Char) : skipJsonWs (':' :: t) = ':' :: t :=
  skipJsonWs_cons _ _ (by decide)

theorem skipJsonWs_comma (t : List Char) : skipJsonWs (',' :: t) = ',' :: t :=
  skipJsonWs_cons _ _ (by decide)

theorem skipJsonWs_rbrack (t : List Char) : skipJsonWs (']' :: t) = ']' :: t :=
  skipJsonWs_cons _ _ (by decide)

theorem skipJsonWs_rcurlyc (t : List Char) : skipJsonWs (rcurly :: t) = rcurly :: t :=
  skipJsonWs_cons _ _ (by decide)

theorem jsonParseVal_to_intNum (f : Nat) (c0 : Char) (t : List Char)
    (hws : isJsonWsChar c0 = false)
    (hn : c0 ≠ 'n') (ht : c0 ≠ 't') (hf : c0 ≠ 'f') (hq : c0 ≠ '"') (hbk : c0 ≠ '[')
    (hlc : c0 ≠ lcurly) (hg : (c0 = '-' || isDigitChar c0) = true) :
    jsonParseVal (f + 1) (c0 :: t) = jsonParseIntNum (c0 :: t) := by
  rw [jsonParseVal, skipJsonWs_cons _ _ hws]
  simp [hn, ht, hf, hq, hbk, hlc, hg]

mutual
/-- Parsing inverts stringification for well-formed values, for any rest that
starts with a delimiter (or is empty). -/
theorem json_rt_val : ∀ (v : JsVal) (fuel : Nat) (rest : List Char),
    JsVal.wfB v = true → (jsonStringifyChars v).length < fuel → jsonDelimRest rest →
    jsonParseVal fuel (jsonStringifyChars v ++ rest) = some (v, rest)
  | .null, fuel, rest, _, hlen, _ => by
    cases fuel with
    | zero => simp at hlen
    | succ f =>
      simp [jsonStringifyChars, jsonParseVal, skipJsonWs, List.dropWhile, isJsonWsChar]
  | .bool b, fuel, rest, _, hlen, _ => by
    cases fuel with
    | zero => cases b <;> simp at hlen
    | succ f =>
      cases b <;>
        simp [jsonStringifyChars, jsonParseVal, skipJsonWs, List.dropWhile, isJsonWsChar]
  | .str s, fuel, rest, _, hlen, _ => by
    cases fuel with
    | zero => simp at hlen
    | succ f =>
      have harg : jsonStringifyChars (.str s) ++ rest
          = '"' :: (s.data.flatMap jsonEscapeChar ++ '"' :: rest) := by
        simp [jsonStringifyChars, jsonStrLit]
      rw [harg, jsonParseVal, skipJsonWs_quote]
      simp [jsonParse_strLit]
  | .num i, fuel, rest, _, hlen, hrest => by
    cases fuel with
    | zero => simp at hlen
    | succ f =>
      by_cases hneg : i < 0
      · have harg : jsonStringifyChars (.num i) ++ rest
            = '-' :: (natDigits i.natAbs ++ rest) := by
          simp [jsonStringifyChars, intChars, if_pos hneg]
        have hback : '-' :: (natDigits i.natAbs ++ rest) = intChars i ++ rest := by
          rw [intChars, if_pos hneg]; rfl
        rw [harg, jsonParseVal_to_intNum f '-' _ (by decide) (by decide) (by decide)
          (by decide) (by decide) (by decide) (by decide) (by decide)]
        rw [hback, jsonParseIntNum_intChars i rest hrest]
      · obtain ⟨c0, t0, h0⟩ : ∃ c0 t0, natDigits i.natAbs = c0 :: t0 := by
          rcases hx : natDigits i.natAbs with _ | ⟨c0, t0⟩
          · exact absurd hx (natDigits_ne_nil _)
          · exact ⟨c0, t0, rfl⟩
        have hc0 : isDigitChar c0 = true := natDigits_digits i.natAbs c0 (by rw [h0]; simp)
        obtain ⟨hws, hrb, hrc, hcm, hn, ht, hf, hq, hbk, hlc, hmm, _⟩ := digit_char_facts c0 hc0
        have harg : jsonStringifyChars (.num i) ++ rest = c0 :: (t0 ++ rest) := by
          simp [jsonStringifyChars, intChars, if_neg hneg, h0]
        have hback : c0 :: (t0 ++ rest) = intChars i ++ rest := by
          rw [intChars, if_neg hneg, h0]; rfl
        rw [harg, jsonParseVal_to_intNum f c0 _ hws hn ht hf hq hbk hlc
          (by simp [hc0])]
        rw [hback, jsonParseIntNum_intChars i rest hrest]
  | .arr [], fuel, rest, _, hlen, _ => by
    cases fuel with
    | zero => simp at hlen
    | succ f =>
      have harg : jsonStringifyChars (.arr []) ++ rest = '[' :: (']' :: rest) := by
        simp [jsonStringifyChars, jsonElemsChars]
      rw [harg, jsonParseVal_lbrack, skipJsonWs_rbrack]
      rfl
  | .arr (e :: es), fuel, rest, hwf, hlen, _ => by
    cases fuel with
    | zero => simp at hlen
    | succ f =>
      obtain ⟨c, t, hren, hcws, hcrb, _, _⟩ := jsonStringify_head e
      have harg : jsonStringifyChars (.arr (e :: es)) ++ rest
          = '[' :: (jsonElemsChars (e :: es) ++ ']' :: rest) := by
        simp [jsonStringifyChars]
      obtain ⟨t1, hjc⟩ : ∃ t1, jsonElemsChars (e :: es) = c :: t1 := by
        rw [jsonElemsChars_cons, hren]
        exact ⟨_, rfl⟩
      have hhead : jsonElemsChars (e :: es) ++ ']' :: rest = c :: (t1 ++ ']' :: rest) := by
        rw [hjc]; rfl
      have hws2 : skipJsonWs (jsonElemsChars (e :: es) ++ ']' :: rest)
          = c :: (t1 ++ ']' :: rest) := by
        rw [hhead]; exact skipJsonWs_cons _ _ hcws
      have helems : jsonParseElems f (jsonElemsChars (e :: es) ++ ']' :: rest)
          = some (e :: es, rest) := by
        have hlen2 : (jsonStringifyChars (JsVal.arr (e :: es))).length
            = (jsonElemsChars (e :: es)).length + 2 := by
          simp [jsonStringifyChars]
        exact json_rt_elems (e :: es) f rest (by simp)
          (by simpa [JsVal.wfB] using hwf) (by omega)
      rw [harg, jsonParseVal_lbrack, hws2]
      split
      · rename_i r1 heq
        exact absurd (List.cons.inj heq).1 hcrb
      · rw [← hhead, helems]
  | .obj [], fuel, rest, _, hlen, _ => by
    cases fuel with
    | zero => simp at hlen
    | succ f =>
      have harg : jsonStringifyChars (.obj []) ++ rest = lcurly :: (rcurly :: rest) := by
        simp [jsonStringifyChars, jsonMembersChars]
      rw [harg, jsonParseVal_lcurly, skipJsonWs_rcurlyc]
      show (if rcurly = rcurly then some (JsVal.obj [], rest)
        else
          match jsonParseMembers f (rcurly :: rest) with
          | some (fs2, r2) => some (JsVal.obj (jsObjFromEntries fs2), r2)
          | none => none) = some (JsVal.obj [], rest)
      rw [if_pos rfl]
  | .obj ((k, v) :: fs), fuel, rest, hwf, hlen, _ => by
    cases fuel with
    | zero => simp at hlen
    | succ f =>
      have hwf2 : (keysNodupB (((k, v) :: fs).map Prod.fst)
          && JsVal.wfBFields ((k, v) :: fs)) = true := by
        simpa [JsVal.wfB] using hwf
      rw [Bool.and_eq_true] at hwf2
      have harg : jsonStringifyChars (.obj ((k, v) :: fs)) ++ rest
          = lcurly :: (jsonMembersChars ((k, v) :: fs) ++ rcurly :: rest) := by
        simp [jsonStringifyChars]
      obtain ⟨t2, hhead⟩ : ∃ t2, jsonMembersChars ((k, v) :: fs) ++ rcurly :: rest
          = '"' :: t2 := by
        rw [jsonMembersChars_cons, jsonStrLit]
        exact ⟨_, rfl⟩
      have hws2 : skipJsonWs (jsonMembersChars ((k, v) :: fs) ++ rcurly :: rest)
          = '"' :: t2 := by
        rw [hhead]; exact skipJsonWs_quote t2
      have hmems : jsonParseMembers f (jsonMembersChars ((k, v) :: fs) ++ rcurly :: rest)
          = some ((k, v) :: fs, rest) := by
        have hlen2 : (jsonStringifyChars (JsVal.obj ((k, v) :: fs))).length
            = (jsonMembersChars ((k, v) :: fs)).length + 2 := by
          simp [jsonStringifyChars]
        exact json_rt_members ((k, v) :: fs) f rest (by simp) hwf2.2 (by omega)
      have hmems2 : jsonParseMembers f ('"' :: t2) = some ((k, v) :: fs, rest) := by
        rw [← hhead]; exact hmems
      rw [harg, jsonParseVal_lcurly, hws2]
      show (if ('"' : Char) = rcurly then some (JsVal.obj [], t2)
        else
          match jsonParseMembers f ('"' :: t2) with
          | some (fs2, r2) => some (JsVal.obj (jsObjFromEntries fs2), r2)
          | none => none) = some (JsVal.obj ((k, v) :: fs), rest)
      rw [if_neg (by decide), hmems2]
      show some (JsVal.obj (jsObjFromEntries ((k, v) :: fs)), rest)
        = some (JsVal.obj ((k, v) :: fs), rest)
      rw [jsObjFromEntries_nodup ((k, v) :: fs) hwf2.1]
  termination_by v _ _ => sizeOf v

/-- Parsing inverts the comma-separated element rendering of a nonempty
array body followed by the closing bracket. -/
theorem json_rt_elems : ∀ (es : List JsVal) (fuel : Nat) (rest : List Char),
    es ≠ [] → JsVal.wfBList es = true → (jsonElemsChars es).length + 1 < fuel →
    jsonParseElems fuel (jsonElemsChars es ++ ']' :: rest) = some (es, rest)
  | [], _, _, hne, _, _ => absurd rfl hne
  | [e], fuel, rest, _, hwf, hlen => by
    cases fuel with
    | zero => simp at hlen
    | succ f =>
      have hwf1 : JsVal.wfB e = true := by
        simp only [JsVal.wfBList, Bool.and_eq_true] at hwf
        exact hwf.1
      have hel : jsonElemsChars [e] = jsonStringifyChars e := by simp [jsonElemsChars]
      have hval : jsonParseVal f (jsonStringifyChars e ++ ']' :: rest)
          = some (e, ']' :: rest) := by
        apply json_rt_val e f (']' :: rest) hwf1 (by rw [hel] at hlen; omega)
        exact Or.inr ⟨']', rest, rfl, Or.inr (Or.inl rfl)⟩
      rw [jsonParseElems, hel, hval]
      simp only [skipJsonWs_rbrack]
  | e :: e2 :: es, fuel, rest, _, hwf, hlen => by
    cases fuel with
    | zero => simp at hlen
    | succ f =>
      have hwf1 : JsVal.wfB e = true := by
        simp only [JsVal.wfBList, Bool.and_eq_true] at hwf
        exact hwf.1
      have hwf2 : JsVal.wfBList (e2 :: es) = true := by
        simp only [JsVal.wfBList, Bool.and_eq_true] at hwf ⊢
        exact hwf.2
      have hel : jsonElemsChars (e :: e2 :: es) ++ ']' :: rest
          = jsonStringifyChars e ++ (',' :: (jsonElemsChars (e2 :: es) ++ ']' :: rest)) := by
        rw [jsonElemsChars_cons]
        simp [List.append_assoc]
      have hlene : (jsonElemsChars (e :: e2 :: es)).length
          = (jsonStringifyChars e).length + 1 + (jsonElemsChars (e2 :: es)).length := by
        rw [jsonElemsChars_cons]
        simp
        omega
      have hval : jsonParseVal f
          (jsonStringifyChars e ++ (',' :: (jsonElemsChars (e2 :: es) ++ ']' :: rest)))
          = some (e, ',' :: (jsonElemsChars (e2 :: es) ++ ']' :: rest)) := by
        apply json_rt_val e f _ hwf1 (by omega)
        exact Or.inr ⟨',', _, rfl, Or.inl rfl⟩
      have hrec : jsonParseElems f (jsonElemsChars (e2 :: es) ++ ']' :: rest)
          = some (e2 :: es, rest) :=
        json_rt_elems (e2 :: es) f rest (by simp) hwf2 (by omega)
      rw [jsonParseElems, hel, hval]
      simp only [skipJsonWs_comma, hrec]
  termination_by es _ _ => sizeOf es

/-- Parsing inverts the comma-separated member rendering of a nonempty
object body followed by the closing brace. -/
theorem json_rt_members : ∀ (fs : List (String × JsVal)) (fuel : Nat) (rest : List Char),
    fs ≠ [] → JsVal.wfBFields fs = true → (jsonMembersChars fs).length + 1 < fuel →
    jsonParseMembers fuel (jsonMembersChars fs ++ rcurly :: rest) = some (fs, rest)
  | [], _, _, hne, _, _ => absurd rfl hne
  | [(k, v)], fuel, rest, _, hwf, hlen => by
    cases fuel with
    | zero => simp at hlen
    | succ f =>
      have hwfv : JsVal.wfB v = true := by
        simp only [JsVal.wfBFields, Bool.and_eq_true] at hwf
        exact hwf.1
      have hlenm : (jsonMembersChars [(k, v)]).length
          = (jsonStrLit k).length + 1 + (jsonStringifyChars v).length := by
        simp [jsonMembersChars]
        omega
      have hkl : (jsonStrLit k).length = (k.data.flatMap jsonEscapeChar).length + 2 := by
        simp [jsonStrLit]
      have hval : jsonParseVal f (jsonStringifyChars v ++ rcurly :: rest)
          = some (v, rcurly :: rest) := by
        apply json_rt_val v f _ hwfv (by omega)
        exact Or.inr ⟨rcurly, rest, rfl, Or.inr (Or.inr rfl)⟩
      have hmem : jsonMembersChars [(k, v)] ++ rcurly :: rest
          = '"' :: (k.data.flatMap jsonEscapeChar
              ++ '"' :: (':' :: (jsonStringifyChars v ++ rcurly :: rest))) := by
        simp [jsonMembersChars, jsonStrLit]
      rw [hmem, jsonParseMembers]
      simp only [skipJsonWs_quote, jsonParse_strLit, skipJsonWs_colon, hval,
        skipJsonWs_rcurlyc]
      split
      · rename_i r4 heq
        exact absurd (List.cons.inj heq).1 (by decide)
      · rename_i d r4 heq
        obtain ⟨hd, hr⟩ := List.cons.inj heq
        rw [← hd, ← hr, if_pos rfl]
      · rename_i heq
        exact absurd heq (by simp)
  | (k, v) :: (k2, v2) :: fs, fuel, rest, _, hwf, hlen => by
    cases fuel with
    | zero => simp at hlen
    | succ f =>
      have hwfv : JsVal.wfB v = true := by
        simp only [JsVal.wfBFields, Bool.and_eq_true] at hwf
        exact hwf.1
      have hwfr : JsVal.wfBFields ((k2, v2) :: fs) = true := by
        simp only [JsVal.wfBFields, Bool.and_eq_true] at hwf ⊢
        exact hwf.2
      have hlenm : (jsonMembersChars ((k, v) :: (k2, v2) :: fs)).length
          = (jsonStrLit k).length + 1 + (jsonStringifyChars v).length
            + 1 + (jsonMembersChars ((k2, v2) :: fs)).length := by
        simp [jsonMembersChars]
        omega
      have hkl : (jsonStrLit k).length = (k.data.flatMap jsonEscapeChar).length + 2 := by
        simp [jsonStrLit]
      have hval : jsonParseVal f (jsonStringifyChars v
          ++ ',' :: (jsonMembersChars ((k2, v2) :: fs) ++ rcurly :: rest))
          = some (v, ',' :: (jsonMembersChars ((k2, v2) :: fs) ++ rcurly :: rest)) := by
        apply json_rt_val v f _ hwfv (by omega)
        exact Or.inr ⟨',', _, rfl, Or.inl rfl⟩
      have hrec : jsonParseMembers f (jsonMembersChars ((k2, v2) :: fs) ++ rcurly :: rest)
          = some ((k2, v2) :: fs, rest) :=
        json_rt_members ((k2, v2) :: fs) f rest (by simp) hwfr (by omega)
      have hmem : jsonMembersChars ((k, v) :: (k2, v2) :: fs) ++ rcurly :: rest
          = '"' :: (k.data.flatMap jsonEscapeChar
              ++ '"' :: (':' :: (jsonStringifyChars v
                ++ ',' :: (jsonMembersChars ((k2, v2) :: fs) ++ rcurly :: rest)))) := by
        simp [jsonMembersChars, jsonStrLit]
      rw [hmem, jsonParseMembers]
      simp only [skipJsonWs_quote, jsonParse_strLit, skipJsonWs_colon, hval,
        skipJsonWs_comma, hrec]
  termination_by fs _ _ => sizeOf fs
end

/-- JSON.parse inverts JSON.stringify on well-formed values. -/
theorem jsonParse_stringify (v : JsVal) (h : JsVal.wfB v = true) :
    jsonParse (jsonStringify v) = some v := by
  have hrt := json_rt_val v ((jsonStringifyChars v).length + 1) [] h (by omega) (Or.inl rfl)
  rw [List.append_nil] at hrt
  rw [jsonParse]
  show (match jsonParseVal ((jsonStringifyChars v).length + 1) (jsonStringifyChars v) with
    | some (v1, r) => if skipJsonWs r = [] then some v1 else none
    | none => none) = some v
  rw [hrt]
  show (if skipJsonWs [] = [] then some v else none) = some v
  rfl

/-- The decode helper recovers any well-formed stringified value. -/
theorem attemptParseJson_stringify (v : JsVal) (h : JsVal.wfB v = true) :
    attemptParseJson (jsonStringify v) = v := by
  rw [attemptParseJson, jsonParse_stringify v h]
  rfl

/-! ### The split and join layer of the query-string round trip -/

theorem intercalate_cons {α : Type} (s x : List α) (l : List (List α)) (h : l ≠ []) :
    List.intercalate s (x :: l) = x ++ s ++ List.intercalate s l := by
  cases l with
  | nil => exact absurd rfl h
  | cons y ys => simp [List.intercalate, List.intersperse]

theorem intercalate_single {α : Type} (s x : List α) :
    List.intercalate s [x] = x := by
  simp [List.intercalate, List.intersperse]

theorem intercalate_append_ne {α : Type} (s : List α) :
    ∀ (g l : List (List α)), g ≠ [] → l ≠ [] →
    List.intercalate s (g ++ l) = List.intercalate s g ++ s ++ List.intercalate s l
  | [], _, hg, _ => absurd rfl hg
  | [g0], l, _, hl => by
    rw [List.singleton_append, intercalate_cons s g0 l hl, intercalate_single]
  | g0 :: g1 :: g2, l, _, hl => by
    have hg2 : g1 :: g2 ++ l ≠ [] := by simp
    rw [List.cons_append, intercalate_cons s g0 _ hg2,
      intercalate_append_ne s (g1 :: g2) l (by simp) hl,
      intercalate_cons s g0 (g1 :: g2) (by simp)]
    simp [List.append_assoc]

theorem splitOnChar_nosep (sep : Char) : ∀ (a : List Char), (∀ c ∈ a, c ≠ sep) →
    splitOnChar sep a = [a]
  | [], _ => rfl
  | c :: rest, h => by
    have hr := splitOnChar_nosep sep rest (fun x hx => h x (List.mem_cons_of_mem c hx))
    simp only [splitOnChar, hr, if_neg (h c (List.mem_cons_self c rest))]
    rfl

theorem splitOnChar_sep_append (sep : Char) : ∀ (a b : List Char), (∀ c ∈ a, c ≠ sep) →
    splitOnChar sep (a ++ sep :: b) = a :: splitOnChar sep b
  | [], b, _ => by
    simp [splitOnChar]
  | c :: a1, b, h => by
    have hr := splitOnChar_sep_append sep a1 b (fun x hx => h x (List.mem_cons_of_mem c hx))
    simp only [List.cons_append, splitOnChar, List.append_eq, hr,
      if_neg (h c (List.mem_cons_self c a1))]
    rfl

theorem splitOnChar_intercalate (sep : Char) : ∀ (ps : List (List Char)), ps ≠ [] →
    (∀ p ∈ ps, ∀ c ∈ p, c ≠ sep) → splitOnChar sep (List.intercalate [sep] ps) = ps
  | [], h, _ => absurd rfl h
  | [p], _, hall => by
    rw [intercalate_single, splitOnChar_nosep sep p (hall p (by simp))]
  | p :: q :: ps, _, hall => by
    rw [intercalate_cons [sep] p (q :: ps) (by simp)]
    have hassoc : p ++ [sep] ++ List.intercalate [sep] (q :: ps)
        = p ++ sep :: List.intercalate [sep] (q :: ps) := by
      simp [List.append_assoc]
    rw [hassoc, splitOnChar_sep_append sep p _ (hall p (by simp)),
      splitOnChar_intercalate sep (q :: ps) (by simp)
        (fun x hx => hall x (List.mem_cons_of_mem p hx))]

theorem takeWhile_all_append (p : Char → Bool) :
    ∀ (a : List Char) (x : Char) (b : List Char),
    (∀ c ∈ a, p c = true) → p x = false →
    (a ++ x :: b).takeWhile p = a
  | [], x, b, _, hx => by simp [List.takeWhile, hx]
  | c :: a1, x, b, h, hx => by
    have hr := takeWhile_all_append p a1 x b (fun y hy => h y (List.mem_cons_of_mem c hy)) hx
    simp only [List.cons_append, List.takeWhile, h c (List.mem_cons_self c a1),
      List.append_eq, hr]

theorem dropWhile_all_append (p : Char → Bool) :
    ∀ (a : List Char) (x : Char) (b : List Char),
    (∀ c ∈ a, p c = true) → p x = false →
    (a ++ x :: b).dropWhile p = x :: b
  | [], x, b, _, hx => by simp [List.dropWhile, hx]
  | c :: a1, x, b, h, hx => by
    have hr := dropWhile_all_append p a1 x b (fun y hy => h y (List.mem_cons_of_mem c hy)) hx
    simp only [List.cons_append, List.dropWhile, h c (List.mem_cons_self c a1),
      List.append_eq, hr]

theorem splitPieceAtEq_enc (a b : List Char) (h : ∀ c ∈ a, c ≠ '=') :
    splitPieceAtEq (a ++ '=' :: b) = (a, b) := by
  rw [splitPieceAtEq]
  rw [takeWhile_all_append _ a '=' b (fun c hc => by simp [h c hc]) (by decide)]
  rw [dropWhile_all_append _ a '=' b (fun c hc => by simp [h c hc]) (by decide)]
  rfl

theorem encURI_not_special (cs : List Char) :
    ∀ x ∈ encodeURIComponentChars cs,
      x ≠ '&' ∧ x ≠ '=' ∧ x ≠ '#' ∧ isLineTerm x = false := by
  intro x hx
  rcases encURI_chars cs x hx with h | h
  · refine ⟨?_, ?_, ?_, ?_⟩
    · intro he; subst he; exact absurd h (by decide)
    · intro he; subst he; exact absurd h (by decide)
    · intro he; subst he; exact absurd h (by decide)
    · have h1 : x ≠ '\n' := by intro he; subst he; exact absurd h (by decide)
      have h2 : x ≠ '\r' := by intro he; subst he; exact absurd h (by decide)
      have h3 : x ≠ Char.ofNat 0x2028 := by intro he; subst he; exact absurd h (by decide)
      have h4 : x ≠ Char.ofNat 0x2029 := by intro he; subst he; exact absurd h (by decide)
      simp [isLineTerm, h1, h2, h3, h4]
  · subst h
    exact ⟨by decide, by decide, by decide, by decide⟩

theorem encPair_chars (k : String) (v : List Char) :
    ∀ x ∈ encPair k v, (x ≠ '&' ∧ x ≠ '#' ∧ isLineTerm x = false) := by
  intro x hx
  rw [encPair] at hx
  rcases List.mem_append.1 hx with hk | hv
  · obtain ⟨h1, _, h3, h4⟩ := encURI_not_special k.data x hk
    exact ⟨h1, h3, h4⟩
  · rcases List.mem_cons.1 hv with rfl | hv2
    · exact ⟨by decide, by decide, by decide⟩
    · obtain ⟨h1, _, h3, h4⟩ := encURI_not_special v x hv2
      exact ⟨h1, h3, h4⟩

theorem encPair_ne_nil (k : String) (v : List Char) : encPair k v ≠ [] := by
  rw [encPair]
  intro he
  have := congrArg List.length he
  simp at this

theorem takeWhile_all (p : Char → Bool) : ∀ (l : List Char), (∀ c ∈ l, p c = true) →
    l.takeWhile p = l
  | [], _ => rfl
  | c :: rest, h => by
    simp only [List.takeWhile, h c (List.mem_cons_self c rest)]
    rw [takeWhile_all p rest (fun x hx => h x (List.mem_cons_of_mem c hx))]

theorem queryHashPart_clean (c : Char) (t : List Char)
    (hterm : ∀ x ∈ c :: t, isLineTerm x = false) (hc : c = '?' ∨ c = '#') :
    queryHashPart (c :: t) = c :: t := by
  rw [queryHashPart]
  rw [takeWhile_all _ (c :: t).reverse
    (fun x hx => by simp [hterm x (List.mem_reverse.1 hx)])]
  rw [List.reverse_reverse]
  have hp : (c ≠ '?' && c ≠ '#') = false := by
    rcases hc with rfl | rfl <;> decide
  simp only [List.dropWhile, hp]

theorem urlSearchParamsEntries_pieces (ps : List (List Char)) (hps : ps ≠ [])
    (hamp : ∀ p ∈ ps, ∀ c ∈ p, c ≠ '&') (hne : ∀ p ∈ ps, p ≠ []) :
    urlSearchParamsEntries ('?' :: List.intercalate ['&'] ps)
      = ps.map (fun p =>
          ((⟨formUrlDecodeChars (splitPieceAtEq p).1⟩ : String),
           (⟨formUrlDecodeChars (splitPieceAtEq p).2⟩ : String))) := by
  simp only [urlSearchParamsEntries]
  rw [splitOnChar_intercalate '&' ps hps hamp]
  rw [List.filter_eq_self.mpr (fun p hp => by simp [hne p hp])]

theorem pairwiseDistinctB_iff (xs : List JsVal) :
    pairwiseDistinctB xs = true ↔ xs.Pairwise (fun a b => jsSameValueZero a b = false) := by
  induction xs with
  | nil => simp [pairwiseDistinctB]
  | cons p ps ih =>
    rw [pairwiseDistinctB, Bool.and_eq_true, ih, List.pairwise_cons]
    simp only [List.all_eq_true, decide_eq_true_eq]
    constructor
    · rintro ⟨h1, h2⟩
      exact ⟨fun q hq => by simpa using h1 q hq, h2⟩
    · rintro ⟨h1, h2⟩
      exact ⟨fun q hq => by simpa using h1 q hq, h2⟩

theorem jsSetDedup_aux : ∀ (xs acc : List JsVal),
    (∀ a ∈ acc, ∀ x ∈ xs, jsSameValueZero a x = false) →
    xs.Pairwise (fun a b => jsSameValueZero a b = false) →
    xs.foldl (fun acc x => if acc.any (fun y => jsSameValueZero y x) then acc else acc ++ [x]) acc
      = acc ++ xs
  | [], acc, _, _ => by simp
  | x :: xs, acc, hcross, hpw => by
    rw [List.foldl_cons]
    have hany : acc.any (fun y => jsSameValueZero y x) = false := by
      rw [List.any_eq_false]
      intro y hy
      simp [hcross y hy x (List.mem_cons_self x xs)]
    rw [List.pairwise_cons] at hpw
    rw [if_neg (by simp [hany])]
    rw [jsSetDedup_aux xs (acc ++ [x]) ?_ hpw.2]
    · simp
    · intro a ha x1 hx1
      rcases List.mem_append.1 ha with h1 | h1
      · exact hcross a h1 x1 (List.mem_cons_of_mem x hx1)
      · rw [List.mem_singleton.1 h1]
        exact hpw.1 x1 hx1

theorem jsSetDedup_distinct (xs : List JsVal) (h : pairwiseDistinctB xs = true) :
    jsSetDedup xs = xs := by
  rw [jsSetDedup, jsSetDedup_aux xs [] (by simp) ((pairwiseDistinctB_iff xs).1 h)]
  rfl

theorem jsGet_fresh_none (m : JsMap) (k : String) (h : jsHasKey m k = false) :
    jsGet m k = none := by
  rw [jsHasKey] at h
  cases hg : jsGet m k with
  | none => rfl
  | some v => rw [hg] at h; simp at h

theorem jsAssign_append_last (m : JsMap) (k : String) (v w : JsVal)
    (h : jsHasKey m k = false) :
    jsAssign (m ++ [(k, v)]) k w = m ++ [(k, w)] := by
  induction m with
  | nil => simp [jsAssign]
  | cons kv rest ih =>
    obtain ⟨k1, v1⟩ := kv
    by_cases hk : k1 = k
    · rw [jsHasKey, jsGet, if_pos hk] at h
      simp at h
    · rw [List.cons_append, jsAssign, if_neg hk]
      rw [jsHasKey, jsGet, if_neg hk] at h
      rw [ih h]
      rfl

theorem reduceEntry_fresh (m : JsMap) (k : String) (r : String)
    (h : jsHasKey m k = false) :
    reduceEntry none m (k, r) = m ++ [(k, attemptParseJson r)] := by
  simp [reduceEntry, applyDelimiter, h]

theorem reduceEntry_arr (m : JsMap) (k r : String) (ys : List JsVal)
    (hget : jsGet m k = some (.arr ys)) (hna : (attemptParseJson r).isArr = false) :
    reduceEntry none m (k, r)
      = jsAssign m k (.arr (jsSetDedup (ys ++ [attemptParseJson r]))) := by
  have hhk : jsHasKey m k = true := by rw [jsHasKey, hget]; rfl
  simp only [reduceEntry, applyDelimiter, hget, hhk, if_true]
  cases hd : attemptParseJson r with
  | arr xs => rw [hd] at hna; simp [JsVal.isArr] at hna
  | str s => rfl
  | num n => rfl
  | bool b => rfl
  | null => rfl
  | obj fs => rfl

theorem reduceEntry_scalar_repeat (m : JsMap) (k r : String) (v0 : JsVal)
    (hget : jsGet m k = some v0) (hv0 : v0.isArr = false)
    (hna : (attemptParseJson r).isArr = false) :
    reduceEntry none m (k, r)
      = jsAssign m k (.arr (jsSetDedup ([v0] ++ [attemptParseJson r]))) := by
  have hhk : jsHasKey m k = true := by rw [jsHasKey, hget]; rfl
  simp only [reduceEntry, applyDelimiter, hget, hhk, if_true]
  cases hv : v0 with
  | arr xs => rw [hv] at hv0; simp [JsVal.isArr] at hv0
  | str s =>
    cases hd : attemptParseJson r with
    | arr xs => rw [hd] at hna; simp [JsVal.isArr] at hna
    | _ => rfl
  | num n =>
    cases hd : attemptParseJson r with
    | arr xs => rw [hd] at hna; simp [JsVal.isArr] at hna
    | _ => rfl
  | bool b =>
    cases hd : attemptParseJson r with
    | arr xs => rw [hd] at hna; simp [JsVal.isArr] at hna
    | _ => rfl
  | null =>
    cases hd : attemptParseJson r with
    | arr xs => rw [hd] at hna; simp [JsVal.isArr] at hna
    | _ => rfl
  | obj fs =>
    cases hd : attemptParseJson r with
    | arr xs => rw [hd] at hna; simp [JsVal.isArr] at hna
    | _ => rfl

theorem jsSetDedup_step_pairwise (acc : List JsVal) (d : JsVal)
    (h : pairwiseDistinctB acc = true) :
    pairwiseDistinctB
      (if acc.any (fun y => jsSameValueZero y d) then acc else acc ++ [d]) = true := by
  by_cases hany : acc.any (fun y => jsSameValueZero y d) = true
  · rw [if_pos hany]; exact h
  · rw [if_neg hany]
    rw [pairwiseDistinctB_iff] at h ⊢
    rw [List.pairwise_append]
    refine ⟨h, by simp, ?_⟩
    intro a ha b hb
    rw [List.mem_singleton.1 hb]
    have hall := List.any_eq_false.1 (Bool.not_eq_true _ ▸ hany)
    have := hall a ha
    simpa using this

theorem jsSetDedup_fold_pairwise : ∀ (xs acc : List JsVal), pairwiseDistinctB acc = true →
    pairwiseDistinctB (xs.foldl
      (fun a x => if a.any (fun y => jsSameValueZero y x) then a else a ++ [x]) acc) = true
  | [], _, h => h
  | x :: xs, acc, h => by
    rw [List.foldl_cons]
    exact jsSetDedup_fold_pairwise xs _ (jsSetDedup_step_pairwise acc x h)

theorem jsSetDedup_pairwise (xs : List JsVal) : pairwiseDistinctB (jsSetDedup xs) = true :=
  jsSetDedup_fold_pairwise xs [] rfl

theorem jsSetDedup_snoc (acc : List JsVal) (d : JsVal) (hacc : pairwiseDistinctB acc = true) :
    jsSetDedup (acc ++ [d])
      = (if acc.any (fun y => jsSameValueZero y d) then acc else acc ++ [d]) := by
  rw [jsSetDedup, List.foldl_append]
  have h2 : acc.foldl
      (fun a x => if a.any (fun y => jsSameValueZero y x) then a else a ++ [x]) [] = acc :=
    jsSetDedup_distinct acc hacc
  rw [h2, List.foldl_cons, List.foldl_nil]

theorem foldEntries_group_aux (k : String) (m : JsMap) (h : jsHasKey m k = false) :
    ∀ (rs : List String) (acc : List JsVal), pairwiseDistinctB acc = true →
    (∀ r ∈ rs, (attemptParseJson r).isArr = false) →
    foldEntries none (m ++ [(k, .arr acc)]) (rs.map (fun r => (k, r)))
      = m ++ [(k, .arr ((rs.map attemptParseJson).foldl
          (fun a x => if a.any (fun y => jsSameValueZero y x) then a else a ++ [x]) acc))]
  | [], acc, _, _ => by simp [foldEntries]
  | r :: rs, acc, hacc, hna => by
    have hget : jsGet (m ++ [(k, .arr acc)]) k = some (.arr acc) := by
      rw [jsGet_append, jsGet_fresh_none m k h]
      simp [jsGet]
    rw [List.map_cons, foldEntries, List.foldl_cons,
      reduceEntry_arr _ k r acc hget (hna r (by simp)),
      jsAssign_append_last m k _ _ h,
      jsSetDedup_snoc acc (attemptParseJson r) hacc]
    rw [← foldEntries]
    rw [foldEntries_group_aux k m h rs _
      (jsSetDedup_step_pairwise acc (attemptParseJson r) hacc)
      (fun x hx => hna x (List.mem_cons_of_mem r hx))]
    rw [List.map_cons, List.foldl_cons]

theorem foldEntries_group (k : String) (m : JsMap) (h : jsHasKey m k = false)
    (r1 r2 : String) (rs : List String)
    (hna : ∀ r ∈ r1 :: r2 :: rs, (attemptParseJson r).isArr = false) :
    foldEntries none m ((r1 :: r2 :: rs).map (fun r => (k, r)))
      = m ++ [(k, .arr (jsSetDedup ((r1 :: r2 :: rs).map attemptParseJson)))] := by
  have h1 : reduceEntry none m (k, r1) = m ++ [(k, attemptParseJson r1)] :=
    reduceEntry_fresh m k r1 h
  have hget1 : jsGet (m ++ [(k, attemptParseJson r1)]) k = some (attemptParseJson r1) := by
    rw [jsGet_append, jsGet_fresh_none m k h]
    simp [jsGet]
  have h2 : reduceEntry none (m ++ [(k, attemptParseJson r1)]) (k, r2)
      = m ++ [(k, .arr (jsSetDedup ([attemptParseJson r1] ++ [attemptParseJson r2])))] := by
    rw [reduceEntry_scalar_repeat _ k r2 (attemptParseJson r1) hget1
      (hna r1 (by simp)) (hna r2 (by simp))]
    rw [jsAssign_append_last m k _ _ h]
  rw [List.map_cons, List.map_cons, foldEntries, List.foldl_cons, h1, List.foldl_cons, h2]
  rw [← foldEntries]
  rw [foldEntries_group_aux k m h rs _
    (jsSetDedup_pairwise ([attemptParseJson r1] ++ [attemptParseJson r2]))
    (fun x hx => hna x (List.mem_cons_of_mem r1 (List.mem_cons_of_mem r2 hx)))]
  have hfold : jsSetDedup (attemptParseJson r1 :: attemptParseJson r2 :: rs.map attemptParseJson)
      = (rs.map attemptParseJson).foldl
          (fun a x => if a.any (fun y => jsSameValueZero y x) then a else a ++ [x])
          (jsSetDedup ([attemptParseJson r1] ++ [attemptParseJson r2])) := by
    rw [jsSetDedup, jsSetDedup, List.foldl_cons, List.foldl_cons]
    rw [List.singleton_append, List.foldl_cons, List.foldl_cons, List.foldl_nil]
  rw [List.map_cons, List.map_cons, hfold]

theorem attemptParseJson_empty : attemptParseJson "" = .str "" := rfl

theorem attemptParse_template_num (i : Int) : attemptParseJson ⟨intChars i⟩ = .num i :=
  attemptParseJson_stringify (.num i) rfl

theorem elemDecode_scalar (x : JsVal) (h : x.isScalar = true) :
    elemDecode x = specNormalizeElem x := by
  cases x with
  | str s => rfl
  | num i => exact attemptParseJson_stringify (.num i) rfl
  | bool b => exact attemptParseJson_stringify (.bool b) rfl
  | null => exact attemptParseJson_stringify .null rfl
  | arr xs => simp [JsVal.isScalar] at h
  | obj fs => simp [JsVal.isScalar] at h

theorem foldEntries_append (d : Option String) (b : JsMap) (l1 l2 : List (String × String)) :
    foldEntries d b (l1 ++ l2) = foldEntries d (foldEntries d b l1) l2 := by
  rw [foldEntries, foldEntries, foldEntries, List.foldl_append]

theorem foldEntries_entry (macc : JsMap) (k : String) (v : JsVal)
    (hfresh : jsHasKey macc k = false) (hk : k ≠ "#")
    (hrt : entryRoundTrippable (k, v) = true) :
    foldEntries none macc (entryPieces (k, v)) = macc ++ [(k, specNormalizeVal v)] := by
  cases v with
  | str s =>
    simp only [entryPieces, foldEntries, List.foldl_cons, List.foldl_nil]
    rw [reduceEntry_fresh macc k _ hfresh]
    rfl
  | num i =>
    simp only [entryPieces, foldEntries, List.foldl_cons, List.foldl_nil]
    rw [reduceEntry_fresh macc k _ hfresh]
    rw [show attemptParseJson (jsTemplate (.num i)) = .num i from
      attemptParseJson_stringify (.num i) rfl]
    rfl
  | bool b =>
    simp only [entryPieces, foldEntries, List.foldl_cons, List.foldl_nil]
    rw [reduceEntry_fresh macc k _ hfresh]
    rw [show attemptParseJson (jsTemplate (.bool b)) = .bool b from
      attemptParseJson_stringify (.bool b) rfl]
    rfl
  | null =>
    simp only [entryPieces, foldEntries, List.foldl_cons, List.foldl_nil]
    rw [reduceEntry_fresh macc k _ hfresh]
    rfl
  | obj fs =>
    rw [entryRoundTrippable, if_neg hk] at hrt
    simp only [entryPieces, foldEntries, List.foldl_cons, List.foldl_nil]
    rw [reduceEntry_fresh macc k _ hfresh]
    rw [show attemptParseJson (jsonStringify (.obj fs)) = .obj fs from
      attemptParseJson_stringify (.obj fs) hrt]
    rfl
  | arr xs =>
    rw [entryRoundTrippable, if_neg hk] at hrt
    have hseq : seqRoundTrippable xs = true := hrt
    rw [seqRoundTrippable] at hseq
    simp only [Bool.and_eq_true] at hseq
    obtain ⟨⟨⟨hlen2, hsc⟩, hnarr⟩, hpd⟩ := hseq
    obtain ⟨x1, x2, xs2, hxs⟩ : ∃ x1 x2 xs2, xs = x1 :: x2 :: xs2 := by
      match xs, hlen2 with
      | x1 :: x2 :: xs2, _ => exact ⟨x1, x2, xs2, rfl⟩
    subst hxs
    simp only [entryPieces]
    have hform : (x1 :: x2 :: xs2).map (fun x => (k, jsTemplate x))
        = (jsTemplate x1 :: jsTemplate x2 :: xs2.map jsTemplate).map (fun r => (k, r)) := by
      simp
    rw [hform, foldEntries_group k macc hfresh _ _ _ ?hna]
    case hna =>
      intro r hr
      rw [show (jsTemplate x1 :: jsTemplate x2 :: xs2.map jsTemplate)
          = (x1 :: x2 :: xs2).map jsTemplate from rfl] at hr
      obtain ⟨x, hx, hxr⟩ := List.mem_map.1 hr
      rw [← hxr]
      have := List.all_eq_true.1 hnarr (elemDecode x)
        (List.mem_map.2 ⟨x, hx, rfl⟩)
      simpa using this
    have hback : (jsTemplate x1 :: jsTemplate x2 :: xs2.map jsTemplate).map attemptParseJson
        = (x1 :: x2 :: xs2).map elemDecode := by
      rw [show (jsTemplate x1 :: jsTemplate x2 :: xs2.map jsTemplate)
          = (x1 :: x2 :: xs2).map jsTemplate from rfl]
      rw [List.map_map]
      rfl
    rw [hback, jsSetDedup_distinct _ hpd]
    have hnorm : (x1 :: x2 :: xs2).map elemDecode = (x1 :: x2 :: xs2).map specNormalizeElem :=
      List.map_congr_left (fun x hx => elemDecode_scalar x (List.all_eq_true.1 hsc x hx))
    rw [hnorm]
    rfl

theorem jsHasKey_singleton (k k1 : String) (w : JsVal) (h : k ≠ k1) :
    jsHasKey [(k, w)] k1 = false := by
  simp [jsHasKey, jsGet, h]

theorem foldEntries_all : ∀ (es : JsMap) (macc : JsMap),
    (∀ kv ∈ es, entryRoundTrippable kv = true ∧ kv.1 ≠ "#") →
    keysNodupB (es.map Prod.fst) = true →
    (∀ kv ∈ es, jsHasKey macc kv.1 = false) →
    foldEntries none macc (es.flatMap entryPieces)
      = macc ++ es.map (fun kv => (kv.1, specNormalizeVal kv.2))
  | [], macc, _, _, _ => by simp [foldEntries]
  | (k, v) :: es, macc, hrt, hnd, hfresh => by
    rw [List.flatMap_cons, foldEntries_append]
    obtain ⟨hrt1, hk1⟩ := hrt (k, v) (List.mem_cons_self _ _)
    rw [foldEntries_entry macc k v (hfresh (k, v) (List.mem_cons_self _ _)) hk1 hrt1]
    rw [List.map_cons, keysNodupB_cons, Bool.and_eq_true] at hnd
    rw [foldEntries_all es (macc ++ [(k, specNormalizeVal v)])
      (fun kv hkv => hrt kv (List.mem_cons_of_mem _ hkv)) hnd.2 ?hfr]
    case hfr =>
      intro kv hkv
      rw [jsHasKey_append, Bool.or_eq_false_iff]
      refine ⟨hfresh kv (List.mem_cons_of_mem _ hkv), ?_⟩
      have hne : kv.1 ≠ k := by
        have := List.all_eq_true.1 hnd.1 kv.1 (List.mem_map.2 ⟨kv, hkv, rfl⟩)
        simpa using this
      exact jsHasKey_singleton k kv.1 _ (fun he => hne he.symm)
    simp [List.append_assoc]

theorem mem_intercalate {α : Type} (s : List α) : ∀ (ps : List (List α)) (x : α),
    x ∈ List.intercalate s ps → (x ∈ s ∨ ∃ p ∈ ps, x ∈ p)
  | [], x, h => by simp [List.intercalate, List.intersperse] at h
  | [p], x, h => by
    rw [intercalate_single] at h
    exact Or.inr ⟨p, by simp, h⟩
  | p :: q :: ps, x, h => by
    rw [intercalate_cons s p (q :: ps) (by simp)] at h
    rcases List.mem_append.1 h with h1 | h1
    · rcases List.mem_append.1 h1 with h2 | h2
      · exact Or.inr ⟨p, by simp, h2⟩
      · exact Or.inl h2
    · rcases mem_intercalate s (q :: ps) x h1 with h2 | ⟨p1, hp1, hx⟩
      · exact Or.inl h2
      · exact Or.inr ⟨p1, List.mem_cons_of_mem p hp1, hx⟩

theorem intercalate_flatten {α : Type} (s : List α) : ∀ (gs : List (List (List α))),
    (∀ g ∈ gs, g ≠ []) →
    List.intercalate s (gs.map (List.intercalate s)) = List.intercalate s gs.flatten
  | [], _ => rfl
  | [g], _ => by
    rw [List.map_cons, List.map_nil, intercalate_single]
    simp
  | g :: g1 :: gs, hne => by
    have hflne : (g1 :: gs).flatten ≠ [] := by
      rw [List.flatten_cons]
      have := hne g1 (by simp)
      intro he
      rcases List.append_eq_nil.1 he with ⟨h1, _⟩
      exact this h1
    rw [List.map_cons, intercalate_cons s _ _ (by simp),
      intercalate_flatten s (g1 :: gs) (fun x hx => hne x (List.mem_cons_of_mem g hx)),
      show (g :: g1 :: gs).flatten = g ++ (g1 :: gs).flatten from List.flatten_cons,
      intercalate_append_ne s g (g1 :: gs).flatten (hne g (by simp)) hflne]

theorem jsGet_mem : ∀ (m : JsMap) (k : String) (v : JsVal), jsGet m k = some v → (k, v) ∈ m
  | [], k, v, h => by rw [jsGet] at h; exact absurd h (by simp)
  | (k1, v1) :: rest, k, v, h => by
    rw [jsGet] at h
    by_cases hk : k1 = k
    · rw [if_pos hk] at h
      rw [← hk, ← Option.some.inj h]
      exact List.mem_cons_self _ _
    · rw [if_neg hk] at h
      exact List.mem_cons_of_mem _ (jsGet_mem rest k v h)

theorem hash_entry_shape (m : JsMap) (hrt : m.all entryRoundTrippable = true)
    (v : JsVal) (hget : jsGet m "#" = some v) :
    ∃ hs : String, v = .str hs ∧ hs.data ≠ [] ∧ (∀ c ∈ hs.data, c ≠ '#')
      ∧ (∀ c ∈ hs.data, isLineTerm c = false) ∧ v.truthy = true := by
  have hmem := jsGet_mem m "#" v hget
  have hv := List.all_eq_true.1 hrt _ hmem
  rw [entryRoundTrippable, if_pos rfl] at hv
  cases v with
  | str hs =>
    simp only [Bool.and_eq_true, decide_eq_true_eq] at hv
    obtain ⟨⟨hne, hhash⟩, hterm⟩ := hv
    refine ⟨hs, rfl, ?_, ?_, ?_, ?_⟩
    · intro he
      apply hne
      cases hs with
      | mk l =>
        have hl : l = [] := he
        rw [hl]
    · intro c hc he
      apply hhash
      rw [he] at hc
      exact List.elem_iff.mpr hc
    · intro c hc
      have := List.all_eq_true.1 hterm c hc
      simpa using this
    · have : (decide ¬(hs = "")) = true := by simp [hne]
      simpa [JsVal.truthy] using this
  | num n => exact absurd hv (by simp)
  | bool b => exact absurd hv (by simp)
  | null => exact absurd hv (by simp)
  | arr xs => exact absurd hv (by simp)
  | obj fs => exact absurd hv (by simp)

theorem keysNodupB_iff (ks : List String) :
    keysNodupB ks = true ↔ ks.Pairwise (fun a b => b ≠ a) := by
  induction ks with
  | nil => simp [keysNodupB]
  | cons k ks ih =>
    rw [keysNodupB_cons, Bool.and_eq_true, ih, List.pairwise_cons]
    simp only [List.all_eq_true, decide_eq_true_eq]

theorem keysNodupB_delete (m : JsMap) (h : keysNodupB (m.map Prod.fst) = true) (k : String) :
    keysNodupB ((jsDelete m k).map Prod.fst) = true := by
  rw [keysNodupB_iff] at h ⊢
  rw [jsDelete]
  exact List.Pairwise.sublist ((List.filter_sublist m).map Prod.fst) h

theorem mem_jsDelete (m : JsMap) (k : String) (kv : String × JsVal)
    (h : kv ∈ jsDelete m k) : kv ∈ m ∧ kv.1 ≠ k := by
  rw [jsDelete] at h
  have := List.mem_filter.1 h
  exact ⟨this.1, by simpa using this.2⟩

theorem entrySubPieces_encPair (kv : String × JsVal) :
    ∀ p ∈ entrySubPieces kv, ∃ v, p = encPair kv.1 v := by
  obtain ⟨k, v⟩ := kv
  cases v with
  | arr xs =>
    intro p hp
    simp only [entrySubPieces] at hp
    obtain ⟨x, _, hx⟩ := List.mem_map.1 hp
    exact ⟨jsTemplateChars x, hx.symm⟩
  | str s => intro p hp; simp only [entrySubPieces, List.mem_singleton] at hp; exact ⟨_, hp⟩
  | num n => intro p hp; simp only [entrySubPieces, List.mem_singleton] at hp; exact ⟨_, hp⟩
  | bool b => intro p hp; simp only [entrySubPieces, List.mem_singleton] at hp; exact ⟨_, hp⟩
  | null => intro p hp; simp only [entrySubPieces, List.mem_singleton] at hp; exact ⟨_, hp⟩
  | obj fs => intro p hp; simp only [entrySubPieces, List.mem_singleton] at hp; exact ⟨_, hp⟩

theorem entrySubPieces_ne_nil (kv : String × JsVal)
    (hrt : entryRoundTrippable kv = true) (hk : kv.1 ≠ "#") :
    entrySubPieces kv ≠ [] := by
  obtain ⟨k, v⟩ := kv
  cases v with
  | arr xs =>
    rw [entryRoundTrippable, if_neg hk] at hrt
    have hseq : seqRoundTrippable xs = true := hrt
    rw [seqRoundTrippable] at hseq
    simp only [Bool.and_eq_true, decide_eq_true_eq] at hseq
    have hlen := hseq.1.1.1
    simp only [entrySubPieces]
    intro he
    rw [List.map_eq_nil_iff] at he
    rw [he] at hlen
    simp at hlen
  | str s => simp [entrySubPieces]
  | num n => simp [entrySubPieces]
  | bool b => simp [entrySubPieces]
  | null => simp [entrySubPieces]
  | obj fs => simp [entrySubPieces]

theorem map_flatMap_local {α β γ : Type} (f : β → γ) (g : α → List β) : ∀ (l : List α),
    (l.flatMap g).map f = l.flatMap (fun x => (g x).map f)
  | [] => rfl
  | x :: xs => by
    rw [List.flatMap_cons, List.map_append, map_flatMap_local f g xs, List.flatMap_cons]

theorem flatMap_eq_flatten {α β : Type} (g : α → List β) : ∀ (l : List α),
    l.flatMap g = (l.map g).flatten
  | [] => rfl
  | x :: xs => by
    rw [List.flatMap_cons, List.map_cons, List.flatten_cons, flatMap_eq_flatten g xs]

theorem decode_one_pair (k1 : String) (vc : List Char) :
    ((⟨formUrlDecodeChars (splitPieceAtEq (encPair k1 vc)).1⟩ : String),
     (⟨formUrlDecodeChars (splitPieceAtEq (encPair k1 vc)).2⟩ : String))
      = (k1, (⟨vc⟩ : String)) := by
  rw [encPair, splitPieceAtEq_enc (encodeURIComponentChars k1.data)
    (encodeURIComponentChars vc)
    (fun c hc => (encURI_not_special k1.data c hc).2.1)]
  show ((⟨formUrlDecodeChars (encodeURIComponentChars k1.data)⟩ : String),
    (⟨formUrlDecodeChars (encodeURIComponentChars vc)⟩ : String)) = (k1, (⟨vc⟩ : String))
  rw [formUrlDecode_encURI, formUrlDecode_encURI]

theorem decode_subpieces (kv : String × JsVal) :
    (entrySubPieces kv).map (fun p =>
        ((⟨formUrlDecodeChars (splitPieceAtEq p).1⟩ : String),
         (⟨formUrlDecodeChars (splitPieceAtEq p).2⟩ : String)))
      = entryPieces kv := by
  obtain ⟨k, v⟩ := kv
  cases v with
  | arr xs =>
    simp only [entrySubPieces, entryPieces, List.map_map]
    exact List.map_congr_left (fun x _ => decode_one_pair k (jsTemplateChars x))
  | str s =>
    simp only [entrySubPieces, entryPieces, List.map_cons, List.map_nil]
    rw [decode_one_pair k (jsTemplateChars (.str s))]
    rfl
  | num n =>
    simp only [entrySubPieces, entryPieces, List.map_cons, List.map_nil]
    rw [decode_one_pair k (jsTemplateChars (.num n))]
    rfl
  | bool b =>
    simp only [entrySubPieces, entryPieces, List.map_cons, List.map_nil]
    rw [decode_one_pair k (jsTemplateChars (.bool b))]
    rfl
  | null =>
    simp only [entrySubPieces, entryPieces, List.map_cons, List.map_nil]
    rw [decode_one_pair k []]
  | obj fs =>
    simp only [entrySubPieces, entryPieces, List.map_cons, List.map_nil]
    rw [decode_one_pair k (jsonStringifyChars (.obj fs))]
    rfl

theorem decode_pieces (es : JsMap)
    (hrt : ∀ kv ∈ es, entryRoundTrippable kv = true ∧ kv.1 ≠ "#")
    (hne : es ≠ []) :
    urlSearchParamsEntries ('?' :: List.intercalate ['&'] (es.flatMap entrySubPieces))
      = es.flatMap entryPieces := by
  have hps : es.flatMap entrySubPieces ≠ [] := by
    obtain ⟨kv, es2, rfl⟩ : ∃ kv es2, es = kv :: es2 := by
      cases es with
      | nil => exact absurd rfl hne
      | cons kv es2 => exact ⟨kv, es2, rfl⟩
    rw [List.flatMap_cons]
    intro he
    rcases List.append_eq_nil.1 he with ⟨h1, _⟩
    exact entrySubPieces_ne_nil kv (hrt kv (by simp)).1 (hrt kv (by simp)).2 h1
  have hpform : ∀ p ∈ es.flatMap entrySubPieces, ∃ k1 v1, p = encPair k1 v1 := by
    intro p hp
    obtain ⟨kv, hkv, hpe⟩ := List.mem_flatMap.1 hp
    obtain ⟨v1, hv1⟩ := entrySubPieces_encPair kv p hpe
    exact ⟨kv.1, v1, hv1⟩
  rw [urlSearchParamsEntries_pieces (es.flatMap entrySubPieces) hps ?hamp ?hnemp]
  case hamp =>
    intro p hp c hc
    obtain ⟨k1, v1, rfl⟩ := hpform p hp
    exact (encPair_chars k1 v1 c hc).1
  case hnemp =>
    intro p hp
    obtain ⟨k1, v1, rfl⟩ := hpform p hp
    exact encPair_ne_nil k1 v1
  rw [map_flatMap_local]
  simp only [decode_subpieces]

theorem encodeQueryMapChars_eq (m : JsMap)
    (hne2 : ∀ kv ∈ jsDelete m "#", entrySubPieces kv ≠ [])
    (hhv : (match jsGet m "#" with
        | some v => if v.truthy then some v else none
        | none => none) = jsGet m "#") :
    encodeQueryMapChars m none
      = (if (jsDelete m "#").length > 0
          then '?' :: List.intercalate ['&'] ((jsDelete m "#").flatMap entrySubPieces)
          else [])
        ++ (match jsGet m "#" with
            | some v => '#' :: jsTemplateChars v
            | none => []) := by
  simp only [encodeQueryMapChars]
  rw [hhv]
  congr 1
  by_cases hlen : (jsDelete m "#").length > 0
  · rw [if_pos hlen, if_pos hlen]
    congr 1
    rw [flatMap_eq_flatten entrySubPieces (jsDelete m "#")]
    rw [← intercalate_flatten ['&'] ((jsDelete m "#").map entrySubPieces)
      (fun g hg => by
        obtain ⟨kv, hkv, hge⟩ := List.mem_map.1 hg
        rw [← hge]
        exact hne2 kv hkv)]
    congr 1
    rw [List.map_map]
    refine List.map_congr_left (fun kv _ => ?_)
    obtain ⟨k, v⟩ := kv
    cases v with
    | arr xs => simp [entrySubPieces, Function.comp]
    | str s => simp [entrySubPieces, Function.comp, intercalate_single]
    | num n => simp [entrySubPieces, Function.comp, intercalate_single]
    | bool b => simp [entrySubPieces, Function.comp, intercalate_single]
    | null => simp [entrySubPieces, Function.comp, intercalate_single]
    | obj fs => simp [entrySubPieces, Function.comp, intercalate_single]
  · rw [if_neg hlen, if_neg hlen]

theorem decodeQueryString_hash (q hb : List Char)
    (hq : ∀ c ∈ q, c ≠ '#' ∧ isLineTerm c = false)
    (hb1 : hb ≠ []) (hb2 : ∀ c ∈ hb, c ≠ '#') (hb3 : ∀ c ∈ hb, isLineTerm c = false) :
    decodeQueryString ⟨('?' :: q) ++ '#' :: hb⟩ none
      = foldEntries none [("#", .str ⟨hb⟩)] (urlSearchParamsEntries ('?' :: q)) := by
  have hqhp : queryHashPart (('?' :: q) ++ '#' :: hb) = ('?' :: q) ++ '#' :: hb := by
    rw [List.cons_append]
    refine queryHashPart_clean '?' (q ++ '#' :: hb) ?_ (Or.inl rfl)
    intro x hx
    rcases List.mem_cons.1 hx with rfl | hx1
    · decide
    rcases List.mem_append.1 hx1 with hx2 | hx2
    · exact (hq x hx2).2
    rcases List.mem_cons.1 hx2 with rfl | hx3
    · decide
    · exact hb3 x hx3
  have hsplit : splitOnChar '#' (('?' :: q) ++ '#' :: hb) = ('?' :: q) :: [hb] := by
    rw [splitOnChar_sep_append '#' ('?' :: q) hb ?ha, splitOnChar_nosep '#' hb hb2]
    case ha =>
      intro c hc
      rcases List.mem_cons.1 hc with rfl | hcq
      · decide
      · exact (hq c hcq).1
  simp only [decodeQueryString, hqhp, hsplit]
  rw [if_pos (by simpa using hb1)]
  rfl

theorem decodeQueryString_nohash (q : List Char)
    (hq : ∀ c ∈ q, c ≠ '#' ∧ isLineTerm c = false) :
    decodeQueryString ⟨'?' :: q⟩ none
      = foldEntries none [] (urlSearchParamsEntries ('?' :: q)) := by
  have hqhp : queryHashPart ('?' :: q) = '?' :: q := by
    refine queryHashPart_clean '?' q ?_ (Or.inl rfl)
    intro x hx
    rcases List.mem_cons.1 hx with rfl | hx1
    · decide
    · exact (hq x hx1).2
  have hsplit : splitOnChar '#' ('?' :: q) = ['?' :: q] := by
    refine splitOnChar_nosep '#' ('?' :: q) ?_
    intro c hc
    rcases List.mem_cons.1 hc with rfl | hcq
    · decide
    · exact (hq c hcq).1
  simp only [decodeQueryString, hqhp, hsplit]
  rw [if_neg (by simp)]
  rfl

theorem decodeQueryString_hashonly (hb : List Char)
    (hb1 : hb ≠ []) (hb2 : ∀ c ∈ hb, c ≠ '#') (hb3 : ∀ c ∈ hb, isLineTerm c = false) :
    decodeQueryString ⟨'#' :: hb⟩ none = [("#", .str ⟨hb⟩)] := by
  have hqhp : queryHashPart ('#' :: hb) = '#' :: hb := by
    refine queryHashPart_clean '#' hb ?_ (Or.inr rfl)
    intro x hx
    rcases List.mem_cons.1 hx with rfl | hx1
    · decide
    · exact hb3 x hx1
  have hsplit : splitOnChar '#' ('#' :: hb) = [] :: [hb] := by
    rw [show ('#' :: hb) = [] ++ '#' :: hb from rfl,
      splitOnChar_sep_append '#' [] hb (by simp), splitOnChar_nosep '#' hb hb2]
  simp only [decodeQueryString, hqhp, hsplit]
  rw [if_pos (by simpa using hb1)]
  rfl

theorem decodeQueryString_empty : decodeQueryString "" none = [] := rfl

theorem decode_encode_master (m : JsMap)
    (hnd : keysNodupB (m.map Prod.fst) = true)
    (hrt : m.all entryRoundTrippable = true) :
    decodeQueryString (encodeQueryMap m none) none
      = (match jsGet m "#" with
          | some v => [("#", v)]
          | none => [])
        ++ (jsDelete m "#").map (fun kv => (kv.1, specNormalizeVal kv.2)) := by
  have hesrt : ∀ kv ∈ jsDelete m "#", entryRoundTrippable kv = true ∧ kv.1 ≠ "#" :=
    fun kv hkv => ⟨List.all_eq_true.1 hrt kv (mem_jsDelete m "#" kv hkv).1,
      (mem_jsDelete m "#" kv hkv).2⟩
  have hesnd := keysNodupB_delete m hnd "#"
  have hne2 : ∀ kv ∈ jsDelete m "#", entrySubPieces kv ≠ [] :=
    fun kv hkv => entrySubPieces_ne_nil kv (hesrt kv hkv).1 (hesrt kv hkv).2
  have hqchars : ∀ c ∈ List.intercalate ['&'] ((jsDelete m "#").flatMap entrySubPieces),
      c ≠ '#' ∧ isLineTerm c = false := by
    intro c hc
    rcases mem_intercalate _ _ c hc with h1 | ⟨p, hp, hcp⟩
    · have h2 : c = '&' := List.mem_singleton.1 h1
      subst h2
      exact ⟨by decide, by decide⟩
    · obtain ⟨kv, hkv, hpe⟩ := List.mem_flatMap.1 hp
      obtain ⟨vv, hvv⟩ := entrySubPieces_encPair kv p hpe
      rw [hvv] at hcp
      have h2 := encPair_chars kv.1 vv c hcp
      exact ⟨h2.2.1, h2.2.2⟩
  cases hget : jsGet m "#" with
  | some v =>
    obtain ⟨hs, hv, hsne, hshash, hsterm, hstr⟩ := hash_entry_shape m hrt v hget
    subst hv
    have hhv : (match jsGet m "#" with
        | some v => if v.truthy then some v else none
        | none => none) = jsGet m "#" := by
      rw [hget]
      show (if (JsVal.str hs).truthy = true then some (JsVal.str hs) else none)
        = some (JsVal.str hs)
      rw [if_pos hstr]
    have henc := encodeQueryMapChars_eq m hne2 hhv
    rw [hget] at henc
    by_cases hlen : (jsDelete m "#").length > 0
    · rw [if_pos hlen] at henc
      have hstr2 : encodeQueryMap m none
          = ⟨('?' :: List.intercalate ['&'] ((jsDelete m "#").flatMap entrySubPieces))
              ++ '#' :: hs.data⟩ := by
        rw [encodeQueryMap, henc]
        rfl
      rw [hstr2, decodeQueryString_hash _ _ hqchars hsne hshash hsterm]
      rw [decode_pieces (jsDelete m "#") hesrt ?hne3]
      case hne3 =>
        intro he
        rw [he] at hlen
        simp at hlen
      rw [foldEntries_all (jsDelete m "#") _ hesrt hesnd ?hfr]
      case hfr =>
        intro kv hkv
        exact jsHasKey_singleton "#" kv.1 _ (fun he => (hesrt kv hkv).2 he.symm)
    · have hes : jsDelete m "#" = [] := by
        cases hfact : jsDelete m "#" with
        | nil => rfl
        | cons kv es2 => rw [hfact] at hlen; simp at hlen
      rw [if_neg hlen] at henc
      have hstr2 : encodeQueryMap m none = ⟨'#' :: hs.data⟩ := by
        rw [encodeQueryMap, henc]
        rfl
      rw [hstr2, decodeQueryString_hashonly hs.data hsne hshash hsterm, hes]
      rfl
  | none =>
    have hhv : (match jsGet m "#" with
        | some v => if v.truthy then some v else none
        | none => none) = jsGet m "#" := by
      rw [hget]
    have henc := encodeQueryMapChars_eq m hne2 hhv
    rw [hget] at henc
    by_cases hlen : (jsDelete m "#").length > 0
    · rw [if_pos hlen] at henc
      have hstr2 : encodeQueryMap m none
          = ⟨'?' :: List.intercalate ['&'] ((jsDelete m "#").flatMap entrySubPieces)⟩ := by
        rw [encodeQueryMap, henc]
        show (⟨('?' :: List.intercalate ['&'] ((jsDelete m "#").flatMap entrySubPieces))
          ++ []⟩ : String)
          = ⟨'?' :: List.intercalate ['&'] ((jsDelete m "#").flatMap entrySubPieces)⟩
        rw [List.append_nil]
      rw [hstr2, decodeQueryString_nohash _ hqchars]
      rw [decode_pieces (jsDelete m "#") hesrt ?hne3]
      case hne3 =>
        intro he
        rw [he] at hlen
        simp at hlen
      rw [foldEntries_all (jsDelete m "#") [] hesrt hesnd (fun kv _ => rfl)]
    · have hes : jsDelete m "#" = [] := by
        cases hfact : jsDelete m "#" with
        | nil => rfl
        | cons kv es2 => rw [hfact] at hlen; simp at hlen
      rw [if_neg hlen] at henc
      have hstr2 : encodeQueryMap m none = "" := by
        rw [encodeQueryMap, henc]
        rfl
      rw [hstr2, decodeQueryString_empty, hes]
      rfl

theorem jsGet_map_val (f : JsVal → JsVal) : ∀ (m : JsMap) (k : String),
    jsGet (m.map (fun kv => (kv.1, f kv.2))) k = (jsGet m k).map f
  | [], _ => rfl
  | (k1, v1) :: rest, k => by
    rw [List.map_cons]
    by_cases hk : k1 = k
    · rw [jsGet, jsGet, if_pos hk, if_pos hk]
      rfl
    · rw [jsGet, jsGet, if_neg hk, if_neg hk]
      exact jsGet_map_val f rest k

theorem jsGet_specNormalizeMap : ∀ (m : JsMap) (k : String),
    jsGet (specNormalizeMap m) k
      = (jsGet m k).map (fun v => if k = "#" then v else specNormalizeVal v)
  | [], _ => rfl
  | (k1, v1) :: rest, k => by
    rw [specNormalizeMap, List.map_cons]
    by_cases hk : k1 = k
    · subst hk
      rw [jsGet, jsGet, if_pos rfl, if_pos rfl]
      rfl
    · rw [jsGet, jsGet, if_neg hk, if_neg hk]
      exact jsGet_specNormalizeMap rest k

theorem jsGet_delete_ne : ∀ (m : JsMap) (k k1 : String), k1 ≠ k →
    jsGet (jsDelete m k) k1 = jsGet m k1
  | [], _, _, _ => rfl
  | (k2, v2) :: rest, k, k1, h => by
    rw [jsDelete, List.filter_cons]
    by_cases hk2 : k2 = k
    · rw [if_neg (by simp [hk2])]
      rw [jsGet, if_neg (fun he => h (by rw [← he, hk2]))]
      rw [← jsDelete]
      exact jsGet_delete_ne rest k k1 h
    · rw [if_pos (by simp [hk2])]
      rw [jsGet, jsGet]
      by_cases hk21 : k2 = k1
      · rw [if_pos hk21, if_pos hk21]
      · rw [if_neg hk21, if_neg hk21, ← jsDelete]
        exact jsGet_delete_ne rest k k1 h

theorem jsGet_delete_self : ∀ (m : JsMap) (k : String), jsGet (jsDelete m k) k = none
  | [], _ => rfl
  | (k2, v2) :: rest, k => by
    rw [jsDelete, List.filter_cons]
    by_cases hk2 : k2 = k
    · rw [if_neg (by simp [hk2]), ← jsDelete]
      exact jsGet_delete_self rest k
    · rw [if_pos (by simp [hk2]), jsGet, if_neg hk2, ← jsDelete]
      exact jsGet_delete_self rest k

theorem queryMapEquiv_hashfront (m : JsMap) :
    queryMapEquiv
      ((match jsGet m "#" with
        | some v => [("#", v)]
        | none => [])
        ++ (jsDelete m "#").map (fun kv => (kv.1, specNormalizeVal kv.2)))
      (specNormalizeMap m) := by
  intro k
  rw [jsGet_append, jsGet_specNormalizeMap]
  by_cases hk : k = "#"
  · subst hk
    cases hget : jsGet m "#" with
    | some v =>
      show (match jsGet [("#", v)] "#" with
        | some w => some w
        | none => jsGet ((jsDelete m "#").map (fun kv => (kv.1, specNormalizeVal kv.2))) "#")
        = (some v).map (fun w => if ("#" : String) = "#" then w else specNormalizeVal w)
      rw [show jsGet [("#", v)] "#" = some v from by rw [jsGet, if_pos rfl]]
      simp
    | none =>
      show jsGet ((jsDelete m "#").map (fun kv => (kv.1, specNormalizeVal kv.2))) "#"
        = Option.map (fun w => if ("#" : String) = "#" then w else specNormalizeVal w) none
      rw [jsGet_map_val, jsGet_delete_self]
      rfl
  · cases hget : jsGet m "#" with
    | some v =>
      show (match jsGet [("#", v)] k with
        | some w => some w
        | none => jsGet ((jsDelete m "#").map (fun kv => (kv.1, specNormalizeVal kv.2))) k)
        = (jsGet m k).map (fun w => if k = "#" then w else specNormalizeVal w)
      rw [show jsGet [("#", v)] k = none from by
        rw [jsGet, if_neg (fun he => hk he.symm)]; rfl]
      rw [jsGet_map_val, jsGet_delete_ne m "#" k hk]
      cases jsGet m k with
      | none => rfl
      | some w => simp [hk]
    | none =>
      show jsGet ((jsDelete m "#").map (fun kv => (kv.1, specNormalizeVal kv.2))) k
        = (jsGet m k).map (fun w => if k = "#" then w else specNormalizeVal w)
      rw [jsGet_map_val, jsGet_delete_ne m "#" k hk]
      cases jsGet m k with
      | none => rfl
      | some w => simp [hk]

theorem head_dropWhile_false (p : Char → Bool) : ∀ (l : List Char) (a : Char),
    (l.dropWhile p).head? = some a → p a = false
  | [], a, h => by simp [List.dropWhile] at h
  | c :: rest, a, h => by
    rw [List.dropWhile] at h
    cases hp : p c with
    | true =>
      rw [hp] at h
      exact head_dropWhile_false p rest a h
    | false =>
      rw [hp] at h
      simp only [List.head?_cons, Option.some.injEq] at h
      rw [← h]
      exact hp

theorem dropTrailingSlashes_no_slash (cs : List Char) :
    ¬ ((dropTrailingSlashes cs).getLast? = some '/') := by
  rw [dropTrailingSlashes, List.getLast?_reverse]
  intro h
  have := head_dropWhile_false _ _ _ h
  simp at this

theorem mem_le_foldr_max : ∀ (l : List Nat) (r : Nat), r ∈ l → r ≤ l.foldr max 0
  | [], r, h => absurd h (List.not_mem_nil r)
  | x :: xs, r, h => by
    rcases List.mem_cons.1 h with rfl | h1
    · exact Nat.le_max_left _ _
    · exact Nat.le_trans (mem_le_foldr_max xs r h1) (Nat.le_max_right _ _)

theorem heapGet_mem_fst : ∀ (h : Heap) (r : Nat) (m : JsMap),
    heapGet h r = some m → r ∈ h.map Prod.fst
  | [], r, m, hg => by rw [heapGet] at hg; exact absurd hg (by simp)
  | (r1, m1) :: rest, r, m, hg => by
    rw [heapGet] at hg
    by_cases hr : r1 = r
    · rw [List.map_cons]
      exact hr ▸ List.mem_cons_self _ _
    · rw [if_neg hr] at hg
      exact List.mem_cons_of_mem _ (heapGet_mem_fst rest r m hg)

theorem freshRef_ne (h : Heap) (r : Nat) (m : JsMap) (hg : heapGet h r = some m) :
    freshRef h ≠ r := by
  intro he
  have h1 := mem_le_foldr_max (h.map Prod.fst) r (heapGet_mem_fst h r m hg)
  rw [freshRef] at he
  omega

theorem lastViableInLine_no_slash : ∀ (line tailAfter : List Char),
    (∀ c ∈ line, c ≠ '/') → lastViableInLine line tailAfter = none
  | [], _, _ => rfl
  | c :: rest, t, h => by
    rw [lastViableInLine,
      lastViableInLine_no_slash rest t (fun x hx => h x (List.mem_cons_of_mem c hx))]
    simp only [h c (List.mem_cons_self c rest), if_false]

theorem extractSearchF_no_slash : ∀ (fuel : Nat) (cs : List Char), (∀ c ∈ cs, c ≠ '/') →
    extractSearchF fuel cs = none
  | 0, _, _ => rfl
  | fuel + 1, cs, h => by
    rw [extractSearchF]
    rw [lastViableInLine_no_slash _ _
      (fun c hc => h c ((List.takeWhile_sublist _).subset hc))]
    split
    · rename_i cap post heq
      exact Option.noConfusion heq
    · split
      · rfl
      · rename_i nl rest1 hrest
        rw [extractSearchF_no_slash fuel rest1 (fun c hc => h c
          ((List.dropWhile_sublist _).subset (by rw [hrest]; exact List.mem_cons_of_mem nl hc)))]

theorem extractSearch_no_slash (cs : List Char) (h : ∀ c ∈ cs, c ≠ '/') :
    extractSearch cs = none := by
  rw [extractSearch]
  exact extractSearchF_no_slash _ cs h

theorem plainValChar_facts (c : Char) (h : plainValChar c = true) :
    c ≠ '&' ∧ c ≠ '#' ∧ c ≠ '%' ∧ c ≠ '+' ∧ isLineTerm c = false := by
  rw [plainValChar] at h
  simp only [Bool.and_eq_true, decide_eq_true_eq] at h
  obtain ⟨⟨⟨⟨h1, h2⟩, h3⟩, h4⟩, h5⟩ := h
  exact ⟨h1, h2, h3, h4, by simpa using h5⟩

theorem plainKeyChar_facts (c : Char) (h : plainKeyChar c = true) :
    c ≠ '&' ∧ c ≠ '#' ∧ c ≠ '%' ∧ c ≠ '+' ∧ isLineTerm c = false ∧ c ≠ '=' := by
  rw [plainKeyChar] at h
  simp only [Bool.and_eq_true, decide_eq_true_eq] at h
  obtain ⟨h1, h2⟩ := h
  obtain ⟨g1, g2, g3, g4, g5⟩ := plainValChar_facts c h1
  exact ⟨g1, g2, g3, g4, g5, h2⟩

/-! ### The claims -/

/-- C1 (amended): for a mapping whose keys are duplicate-free and whose
entries are round-trippable — sequences have at least two scalar elements
whose decodings are pairwise distinct and non-array, objects are well
formed, and the hash entry is a nonempty string free of hash signs and
line terminators — encoding the map with getQueryParams and decoding the
resulting string yields a map equivalent to the spec-side JSON type
normalization of the original. -/
theorem C1_roundtrip (m : JsMap)
    (hnd : keysNodupB (m.map Prod.fst) = true)
    (hrt : m.all entryRoundTrippable = true) :
    ∃ s m2, getQueryParams (.ofObj m) none = .ok (.ofString s)
      ∧ getQueryParams (.ofString s) none = .ok (.ofMap m2)
      ∧ queryMapEquiv m2 (specNormalizeMap m) := by
  refine ⟨encodeQueryMap m none, decodeQueryString (encodeQueryMap m none) none,
    rfl, rfl, ?_⟩
  intro k
  rw [decode_encode_master m hnd hrt]
  exact queryMapEquiv_hashfront m k

/-- Witness of C1 at a concrete three-entry map with a sequence, a
JSON-looking string and a hash entry. -/
theorem C1_roundtrip_witness :
    keysNodupB (([("a", JsVal.arr [.num 1, .num 2]), ("b", .str "true"),
        ("#", .str "frag")] : JsMap).map Prod.fst) = true
    ∧ ([("a", JsVal.arr [.num 1, .num 2]), ("b", .str "true"),
        ("#", .str "frag")] : JsMap).all entryRoundTrippable = true
    ∧ ∃ s m2,
        getQueryParams (.ofObj [("a", JsVal.arr [.num 1, .num 2]), ("b", .str "true"),
          ("#", .str "frag")]) none = .ok (.ofString s)
        ∧ getQueryParams (.ofString s) none = .ok (.ofMap m2)
        ∧ queryMapEquiv m2 (specNormalizeMap [("a", JsVal.arr [.num 1, .num 2]),
            ("b", .str "true"), ("#", .str "frag")]) :=
  ⟨by decide, by decide, C1_roundtrip _ (by decide) (by decide)⟩

/-- Counterexample to the unqualified round-trip of the spec: a sequence
with two equal elements collapses to a one-element sequence through the
Set, which no JSON type normalization of the spec can account for. -/
theorem C1_counterexample :
    getQueryParams (.ofObj [("a", JsVal.arr [.str "x", .str "x"])]) none
      = .ok (.ofString "?a=x&a=x")
    ∧ getQueryParams (.ofString "?a=x&a=x") none
      = .ok (.ofMap [("a", JsVal.arr [.str "x"])])
    ∧ jsGet (specNormalizeMap [("a", JsVal.arr [.str "x", .str "x"])]) "a"
      = some (.arr [.str "x", .str "x"])
    ∧ ¬ (jsGet [("a", JsVal.arr [.str "x"])] "a" = some (.arr [.str "x", .str "x"])) :=
  ⟨rfl, rfl, rfl, by decide⟩

/-- C2: with returnUrl unset the source returns getQueryParams() — a fresh
decode of the unchanged current location — instead of the map it just
computed, so the set of b to 2 is absent from the returned map even though
the returnUrl variant of the very same call shows b=2 in the new URL. -/
theorem C2_default_return_stale :
    modifyQueryParams (.ofString "b") (some (.num 2)) noModOptions
        ⟨"https://x.com/p?a=1"⟩
      = .ok (.ofMap [("a", .num 1)], ⟨"https://x.com/p?a=1"⟩)
    ∧ modifyQueryParams (.ofString "b") (some (.num 2)) ⟨none, false, false, true⟩
        ⟨"https://x.com/p?a=1"⟩
      = .ok (.ofString "https://x.com/p?a=1&b=2", ⟨"https://x.com/p?a=1"⟩)
    ∧ ¬ (([("a", JsVal.num 1)] : JsMap)
        = jsAssign [("a", JsVal.num 1)] "b" (.num 2)) :=
  ⟨rfl, rfl, by decide⟩

/-- C3 (amended): when a key repeats in the decoded query string, the
values collect into an ordered, Set-deduplicated sequence of the decoded
values — and when every occurrence carries the same value the result is
the singleton sequence holding that value, not the bare value itself. -/
theorem C3_repeated_keys (k r1 r2 : String) (rs : List String)
    (hk : ∀ c ∈ k.data, plainKeyChar c = true)
    (hrs : ∀ r ∈ r1 :: r2 :: rs, (∀ c ∈ r.data, plainValChar c = true)
        ∧ (attemptParseJson r).isArr = false) :
    decodeQueryString
        ⟨'?' :: List.intercalate ['&']
          ((r1 :: r2 :: rs).map (fun r => k.data ++ '=' :: r.data))⟩ none
      = [(k, .arr (jsSetDedup ((r1 :: r2 :: rs).map attemptParseJson)))] := by
  have hkf : ∀ c ∈ k.data, c ≠ '&' ∧ c ≠ '#' ∧ c ≠ '%' ∧ c ≠ '+' ∧ isLineTerm c = false
      ∧ c ≠ '=' := fun c hc => plainKeyChar_facts c (hk c hc)
  have hpieceC : ∀ p ∈ (r1 :: r2 :: rs).map (fun r => k.data ++ '=' :: r.data),
      ∀ c ∈ p, c ≠ '&' ∧ c ≠ '#' ∧ isLineTerm c = false := by
    intro p hp c hc
    obtain ⟨r, hr, hpr⟩ := List.mem_map.1 hp
    rw [← hpr] at hc
    rcases List.mem_append.1 hc with h1 | h1
    · have := hkf c h1
      exact ⟨this.1, this.2.1, this.2.2.2.2.1⟩
    rcases List.mem_cons.1 h1 with rfl | h1
    · exact ⟨by decide, by decide, by decide⟩
    · have := plainValChar_facts c ((hrs r hr).1 c h1)
      exact ⟨this.1, this.2.1, this.2.2.2.2⟩
  have hq : ∀ c ∈ List.intercalate ['&']
      ((r1 :: r2 :: rs).map (fun r => k.data ++ '=' :: r.data)),
      c ≠ '#' ∧ isLineTerm c = false := by
    intro c hc
    rcases mem_intercalate _ _ c hc with h1 | ⟨p, hp, hcp⟩
    · have h2 : c = '&' := List.mem_singleton.1 h1
      subst h2
      exact ⟨by decide, by decide⟩
    · exact ⟨(hpieceC p hp c hcp).2.1, (hpieceC p hp c hcp).2.2⟩
  rw [decodeQueryString_nohash _ hq]
  rw [urlSearchParamsEntries_pieces _ (by simp) ?hamp ?hpne]
  case hamp =>
    intro p hp c hc
    exact (hpieceC p hp c hc).1
  case hpne =>
    intro p hp
    obtain ⟨r, hr, hpr⟩ := List.mem_map.1 hp
    rw [← hpr]
    simp
  have hdec : ((r1 :: r2 :: rs).map (fun r => k.data ++ '=' :: r.data)).map (fun p =>
      ((⟨formUrlDecodeChars (splitPieceAtEq p).1⟩ : String),
       (⟨formUrlDecodeChars (splitPieceAtEq p).2⟩ : String)))
      = (r1 :: r2 :: rs).map (fun r => (k, r)) := by
    rw [List.map_map]
    refine List.map_congr_left (fun r hr => ?_)
    show ((⟨formUrlDecodeChars (splitPieceAtEq (k.data ++ '=' :: r.data)).1⟩ : String),
      (⟨formUrlDecodeChars (splitPieceAtEq (k.data ++ '=' :: r.data)).2⟩ : String)) = (k, r)
    rw [splitPieceAtEq_enc k.data r.data (fun c hc => (hkf c hc).2.2.2.2.2)]
    show ((⟨formUrlDecodeChars k.data⟩ : String), (⟨formUrlDecodeChars r.data⟩ : String))
      = (k, r)
    rw [formUrlDecode_plain k.data (fun c hc => ⟨(hkf c hc).2.2.2.1, (hkf c hc).2.2.1⟩)]
    rw [formUrlDecode_plain r.data (fun c hc =>
      ⟨(plainValChar_facts c ((hrs r hr).1 c hc)).2.2.2.1,
       (plainValChar_facts c ((hrs r hr).1 c hc)).2.2.1⟩)]
  rw [hdec]
  rw [foldEntries_group k [] rfl r1 r2 rs (fun r hr => (hrs r hr).2)]
  rw [List.nil_append]

/-- Witness of C3 at the repeated equal pair a=x&a=x: the result is the
one-element sequence, the deduplication of the two equal decodings. -/
theorem C3_repeated_keys_witness :
    (∀ c ∈ ("a" : String).data, plainKeyChar c = true)
    ∧ (∀ r ∈ ["x", "x"], (∀ c ∈ (r : String).data, plainValChar c = true)
        ∧ (attemptParseJson r).isArr = false)
    ∧ decodeQueryString
        ⟨'?' :: List.intercalate ['&']
          ((["x", "x"] : List String).map
            (fun r => ("a" : String).data ++ '=' :: r.data))⟩ none
      = [("a", .arr (jsSetDedup ((["x", "x"] : List String).map attemptParseJson)))] :=
  ⟨by decide, by decide, C3_repeated_keys "a" "x" "x" [] (by decide) (by decide)⟩

/-- Counterexample to the collapse the spec asserts: the repeated equal
value decodes to a one-element array, not to the bare value, while the
distinct-values example decodes as the spec expects. -/
theorem C3_counterexample :
    decodeQueryString "?a=x&a=x" none = [("a", JsVal.arr [.str "x"])]
    ∧ ¬ (decodeQueryString "?a=x&a=x" none = [("a", JsVal.str "x")])
    ∧ decodeQueryString "?a=1&a=2" none = [("a", JsVal.arr [.num 1, .num 2])] :=
  ⟨rfl, by decide, rfl⟩

/-- C4 (amended): a string passed to getQueryParams is decoded into a
query-parameter map — the call never returns the string unchanged, and in
fact never returns a string at all. -/
theorem C4_string_decoded (s : String) (d : Option String) :
    getQueryParams (.ofString s) d = .ok (.ofMap (decodeQueryString s d))
    ∧ ∀ out, ¬ (getQueryParams (.ofString s) d = .ok (.ofString out)) := by
  refine ⟨rfl, fun out he => ?_⟩
  simp [getQueryParams] at he

/-- Witness of C4 at a concrete query string. -/
theorem C4_string_decoded_witness :
    ¬ (getQueryParams (.ofString "?a=1") none = .ok (.ofString "?a=1")) :=
  (C4_string_decoded "?a=1" none).2 "?a=1"

/-- Counterexample to the pass-through identity the spec asserts for
string inputs: the string "?a=1" comes back as the decoded map, not as
itself. -/
theorem C4_counterexample :
    getQueryParams (.ofString "?a=1") none = .ok (.ofMap [("a", JsVal.num 1)])
    ∧ ¬ (getQueryParams (.ofString "?a=1") none = .ok (.ofString "?a=1")) :=
  ⟨rfl, by intro he; simp [getQueryParams] at he⟩

/-- C5: a number or boolean input makes getQueryParams throw a TypeError
naming the received type and the two accepted shapes, for any delimiter
option. -/
theorem C5_type_error (n : Int) (b : Bool) (d : Option String) :
    getQueryParams (.ofNum n) d
      = .error (.typeError "Type \"number\" is not supported. Please use a string or object.")
    ∧ getQueryParams (.ofBool b) d
      = .error (.typeError "Type \"boolean\" is not supported. Please use a string or object.") :=
  ⟨rfl, rfl⟩

/-- C6: scalar query values are opportunistically JSON-parsed — "123"
becomes the number 123 and "true" the boolean true — a failed parse keeps
the original string verbatim, and a string input never surfaces an error:
decoding always returns a map. -/
theorem C6_json_leniency :
    decodeQueryString "?a=123" none = [("a", JsVal.num 123)]
    ∧ decodeQueryString "?a=true" none = [("a", JsVal.bool true)]
    ∧ decodeQueryString "?a=abc" none = [("a", JsVal.str "abc")]
    ∧ (∀ s : String, attemptParseJson s = (jsonParse s).getD (.str s))
    ∧ (∀ (s : String) (d : Option String),
        ∃ m2, getQueryParams (.ofString s) d = .ok (.ofMap m2)) :=
  ⟨rfl, rfl, rfl, fun _ => rfl, fun s d => ⟨decodeQueryString s d, rfl⟩⟩

/-- C7: a supplied delimiter splits a single raw value into a sequence
whose elements are each JSON-parsed — both at the spec's concrete example
and for every fresh key whose raw value splits into at least two parts. -/
theorem C7_delimiter (d r : String) (m : JsMap) (k : String)
    (hfresh : jsHasKey m k = false) (hlen : 2 ≤ (jsStringSplit r d).length) :
    decodeQueryString "?a=1,2,3" (some ",") = [("a", JsVal.arr [.num 1, .num 2, .num 3])]
    ∧ reduceEntry (some d) m (k, r)
      = m ++ [(k, .arr ((jsStringSplit r d).map attemptParseJson))] := by
  refine ⟨rfl, ?_⟩
  have happ : applyDelimiter (some d) r = .inr (jsStringSplit r d) := by
    simp only [applyDelimiter]
    rw [if_neg (by omega), if_neg (by omega)]
  simp [reduceEntry, happ, hfresh]

/-- Witness of C7 at a fresh key and the raw value 1,2 split on a comma. -/
theorem C7_delimiter_witness :
    jsHasKey [] "a" = false ∧ 2 ≤ (jsStringSplit "1,2" ",").length
    ∧ (decodeQueryString "?a=1,2,3" (some ",")
        = [("a", JsVal.arr [.num 1, .num 2, .num 3])]
      ∧ reduceEntry (some ",") [] ("a", "1,2")
        = [] ++ [("a", JsVal.arr ((jsStringSplit "1,2" ",").map attemptParseJson))]) :=
  ⟨rfl, by decide, C7_delimiter "," "1,2" [] "a" rfl (by decide)⟩

/-- C8 (amended): getUrlSegments always strips every trailing slash from
the origin and the pathname, and on the spec's examples also strips the
protocol's colon-and-slashes and the leading query and hash markers; the
full URL, however, only loses its first slash run standing immediately
before a question mark, a hash sign or the end (a single, non-global
replacement). -/
theorem C8_normalization (url : String) (segs : UrlSegments)
    (h : getUrlSegments url = .ok segs) :
    ¬ (segs.origin.data.getLast? = some '/')
    ∧ ¬ (segs.pathname.data.getLast? = some '/')
    ∧ (∃ s0, getUrlSegments "https://example.com/path/" = .ok s0
        ∧ s0.pathname = "/path" ∧ s0.origin = "https://example.com"
        ∧ s0.protocol = "https" ∧ s0.fullUrl = "https://example.com/path")
    ∧ (∃ s1, getUrlSegments "https://example.com/path/?a=1#sec" = .ok s1
        ∧ s1.queryString = "a=1" ∧ s1.hash = "sec") := by
  have hshape : (∃ o0 : String, segs.origin = dropTrailingSlashesStr o0)
      ∧ (∃ p0 : String, segs.pathname = dropTrailingSlashesStr p0) := by
    simp only [getUrlSegments] at h
    split at h
    · exact absurd h (by simp)
    · rw [Except.ok.injEq] at h
      subst h
      exact ⟨⟨_, rfl⟩, ⟨_, rfl⟩⟩
  obtain ⟨⟨o0, ho⟩, ⟨p0, hp2⟩⟩ := hshape
  refine ⟨?_, ?_, ⟨_, rfl, rfl, rfl, rfl, rfl⟩, ⟨_, rfl, rfl, rfl⟩⟩
  · rw [ho]
    exact dropTrailingSlashes_no_slash _
  · rw [hp2]
    exact dropTrailingSlashes_no_slash _

/-- Witness of C8 at the spec's example URL. -/
theorem C8_normalization_witness :
    ∃ segs, getUrlSegments "https://example.com/path/" = .ok segs
      ∧ (¬ (segs.origin.data.getLast? = some '/')
        ∧ ¬ (segs.pathname.data.getLast? = some '/')
        ∧ (∃ s0, getUrlSegments "https://example.com/path/" = .ok s0
            ∧ s0.pathname = "/path" ∧ s0.origin = "https://example.com"
            ∧ s0.protocol = "https" ∧ s0.fullUrl = "https://example.com/path")
        ∧ (∃ s1, getUrlSegments "https://example.com/path/?a=1#sec" = .ok s1
            ∧ s1.queryString = "a=1" ∧ s1.hash = "sec")) :=
  ⟨_, rfl, C8_normalization "https://example.com/path/" _ rfl⟩

/-- Counterexample to the blanket trailing-slash stripping of the full
URL: when an earlier slash run stands before the question mark, the single
replacement consumes it and the trailing run survives. -/
theorem C8_counterexample :
    ∃ segs, getUrlSegments "https://x.com/p/?q//" = .ok segs
      ∧ segs.fullUrl = "https://x.com/p?q//"
      ∧ segs.fullUrl.data.getLast? = some '/' :=
  ⟨_, rfl, rfl, rfl⟩

/-- C9: the encode branch works on a shallow copy, so the caller's object
keeps all of its entries, including the hash entry, while the returned
string is the encoding of the full original map. -/
theorem C9_caller_map_preserved (h : Heap) (r : Nat) (m : JsMap) (d : Option String)
    (hget : heapGet h r = some m) :
    (getQueryParamsObjHeap h r d).1 = encodeQueryMap m d
    ∧ heapGet (getQueryParamsObjHeap h r d).2 r = some m := by
  simp only [getQueryParamsObjHeap, hget]
  refine ⟨trivial, ?_⟩
  show heapGet (heapSet ((freshRef h, m) :: h) (freshRef h) (jsDelete m "#")) r = some m
  rw [heapSet, if_pos rfl]
  rw [heapGet, if_neg (freshRef_ne h r m hget)]
  exact hget

/-- Witness of C9 at a one-object heap holding a map with a hash entry. -/
theorem C9_caller_map_preserved_witness :
    heapGet [(0, [("a", JsVal.str "x"), ("#", JsVal.str "s")])] 0
      = some [("a", JsVal.str "x"), ("#", JsVal.str "s")]
    ∧ ((getQueryParamsObjHeap [(0, [("a", JsVal.str "x"), ("#", JsVal.str "s")])] 0 none).1
        = encodeQueryMap [("a", JsVal.str "x"), ("#", JsVal.str "s")] none
      ∧ heapGet (getQueryParamsObjHeap
          [(0, [("a", JsVal.str "x"), ("#", JsVal.str "s")])] 0 none).2 0
        = some [("a", JsVal.str "x"), ("#", JsVal.str "s")]) :=
  ⟨rfl, C9_caller_map_preserved _ 0 _ none rfl⟩

/-- C10: a url without a slash passes through
extractFinalPathnameSegmentFromUrl unchanged, and the call with no
argument returns the empty string. -/
theorem C10_no_slash (url : String) (h : ∀ c ∈ url.data, c ≠ '/') :
    extractFinalPathnameSegmentFromUrl url = url
    ∧ extractFinalPathnameSegmentFromUrl = "" := by
  refine ⟨?_, rfl⟩
  rw [extractFinalPathnameSegmentFromUrl, extractSearch_no_slash url.data h]

/-- Witness of C10 at a slash-free url. -/
theorem C10_no_slash_witness :
    (∀ c ∈ ("abc.def" : String).data, c ≠ '/')
    ∧ (extractFinalPathnameSegmentFromUrl "abc.def" = "abc.def"
      ∧ extractFinalPathnameSegmentFromUrl = "") :=
  ⟨by decide, C10_no_slash "abc.def" (by decide)⟩
